import Mathlib

/-!
Verification of the call-system reminder scheduler (`src/call-system/app.py`).

The development shallowly embeds the scheduler's pure core: datetime parsing
(`try_parse_datetime`), phone normalization (`normalize_e164`), the mark-called
store write (`mark_called`), one scan pass (`process_due_once`) and the
periodic loop (`scheduler_loop`).  Stateful parts are modelled by explicit
state passing over a store of users; the external call provider and the store
write are modelled by boolean oracles saying whether each attempt succeeds,
and each provider invocation is recorded as an event.
-/

namespace CallSystem

/-- A naive Python `datetime` restricted to whole seconds (the scheduler only
compares instants by `total_seconds`, and all parsed inputs have at most
second granularity). -/
structure PyDateTime where
  year : Nat
  month : Nat
  day : Nat
  hour : Nat
  minute : Nat
  second : Nat
deriving DecidableEq, Repr

/-- Decimal digit value of a character, if it is a digit. -/
def digit? (c : Char) : Option Nat :=
  if c.isDigit then some (c.toNat - 48) else none

/-- Gregorian leap year, as Python's `calendar.isleap` / `datetime`. -/
def isLeap (y : Nat) : Bool :=
  (y % 4 == 0 && y % 100 != 0) || y % 400 == 0

/-- Days in a month, used by `datetime`'s range validation. -/
def daysInMonth (y m : Nat) : Nat :=
  if m = 2 then (if isLeap y then 29 else 28)
  else if m = 4 ∨ m = 6 ∨ m = 9 ∨ m = 11 then 30
  else 31

/-- Days since 0000-03-01 (Gregorian, proleptic); monotone encoding of the
date part used to subtract datetimes exactly, as Python's `datetime`
subtraction does. -/
def daysFromCivil (y m d : Nat) : Nat :=
  let y' := if m ≤ 2 then y - 1 else y
  let era := y' / 400
  let yoe := y' % 400
  let mp := if 2 < m then m - 3 else m + 9
  let doy := (153 * mp + 2) / 5 + d - 1
  let doe := yoe * 365 + yoe / 4 - yoe / 100 + doy
  era * 146097 + doe

/-- Seconds-since-epoch encoding of a naive datetime; differences of `toSec`
agree with Python's `(a - b).total_seconds()` for whole-second datetimes. -/
def toSec (dt : PyDateTime) : Nat :=
  86400 * daysFromCivil dt.year dt.month dt.day
    + 3600 * dt.hour + 60 * dt.minute + dt.second

/-- Validation performed by the `datetime` constructor: year at least 1,
month 1..12, day in range for the month, time components in range. -/
def validDT (y mo da hh mi ss : Nat) : Bool :=
  1 ≤ y && 1 ≤ mo && mo ≤ 12 && 1 ≤ da && da ≤ daysInMonth y mo
    && hh < 24 && mi < 60 && ss < 60

/-- Time tail accepted by `datetime.fromisoformat` after the 10-character
date: empty, or one separator character (any character) followed by
`HH`, `HH:MM` or `HH:MM:SS` (fractional seconds and offsets are not used by
the reminder data and are not modelled). -/
def parseTimeTail (l : List Char) : Option (Nat × Nat × Nat) :=
  match l with
  | [] => some (0, 0, 0)
  | _ :: t =>
    match t with
    | [h1, h2] =>
      match digit? h1, digit? h2 with
      | some a, some b => some (10 * a + b, 0, 0)
      | _, _ => none
    | [h1, h2, ':', m1, m2] =>
      match digit? h1, digit? h2, digit? m1, digit? m2 with
      | some a, some b, some c, some d => some (10 * a + b, 10 * c + d, 0)
      | _, _, _, _ => none
    | [h1, h2, ':', m1, m2, ':', s1, s2] =>
      match digit? h1, digit? h2, digit? m1, digit? m2, digit? s1, digit? s2 with
      | some a, some b, some c, some d, some e, some f =>
        some (10 * a + b, 10 * c + d, 10 * e + f)
      | _, _, _, _, _, _ => none
    | _ => none

/-- Model of `datetime.fromisoformat`: `YYYY-MM-DD` then an optional time
tail, with `datetime` range validation. -/
def fromiso (l : List Char) : Option PyDateTime :=
  match l with
  | y1 :: y2 :: y3 :: y4 :: '-' :: m1 :: m2 :: '-' :: d1 :: d2 :: rest =>
    match digit? y1, digit? y2, digit? y3, digit? y4,
          digit? m1, digit? m2, digit? d1, digit? d2 with
    | some a, some b, some c, some d, some e, some f, some g, some h =>
      let y := 1000 * a + 100 * b + 10 * c + d
      let mo := 10 * e + f
      let da := 10 * g + h
      match parseTimeTail rest with
      | some (hh, mi, ss) =>
        if validDT y mo da hh mi ss then some ⟨y, mo, da, hh, mi, ss⟩ else none
      | none => none
    | _, _, _, _, _, _, _, _ => none
  | _ => none

/-- Two leading digits of a character list, with the remainder. -/
def twoDigits (l : List Char) : Option (Nat × List Char) :=
  match l with
  | a :: b :: rest =>
    match digit? a, digit? b with
    | some x, some y => some (10 * x + y, rest)
    | _, _ => none
  | _ => none

/-- One leading digit of a character list, with the remainder. -/
def oneDigit (l : List Char) : Option (Nat × List Char) :=
  match l with
  | a :: rest =>
    match digit? a with
    | some x => some (x, rest)
    | _ => none
  | _ => none

/-- A 1-2 digit numeric field of `strptime`, as its regular expression
matches it: the two-digit alternatives (value range `lo2..hi2`) are tried
first, and on any later failure the match backtracks to a single digit
(`0` allowed only when `z1` is true).  `k` is the rest of the match. -/
def pField (lo2 hi2 : Nat) (z1 : Bool) (k : Nat → List Char → Option PyDateTime)
    (l : List Char) : Option PyDateTime :=
  match
    (match twoDigits l with
     | some (v, rest) => if lo2 ≤ v ∧ v ≤ hi2 then k v rest else none
     | none => none) with
  | some dt => some dt
  | none =>
    match oneDigit l with
    | some (v, rest) => if z1 ∨ 1 ≤ v then k v rest else none
    | none => none

/-- A required literal character of `strptime`. -/
def expectCh (c : Char) (k : List Char → Option PyDateTime)
    (l : List Char) : Option PyDateTime :=
  match l with
  | c' :: rest => if c' = c then k rest else none
  | [] => none

/-- The exactly-4-digit `%Y` field of `strptime`. -/
def year4 (k : Nat → List Char → Option PyDateTime)
    (l : List Char) : Option PyDateTime :=
  match l with
  | a :: b :: c :: d :: rest =>
    match digit? a, digit? b, digit? c, digit? d with
    | some w, some x, some y, some z => k (1000 * w + 100 * x + 10 * y + z) rest
    | _, _, _, _ => none
  | _ => none

/-- Model of `datetime.strptime(s, "%d/%m/%Y %H:%M")`: the full string must
match (Python raises on unconverted trailing data), numeric fields accept one
or two digits as the `_strptime` regular expression does, and the `datetime`
constructor validates ranges. -/
def strpDMY (l : List Char) : Option PyDateTime :=
  pField 1 31 false (fun dd => expectCh '/' (
    pField 1 12 false (fun mm => expectCh '/' (
      year4 (fun yy => expectCh ' ' (
        pField 0 23 true (fun hh => expectCh ':' (
          pField 0 59 true (fun mi l9 =>
            if l9 = [] then
              (if validDT yy mm dd hh mi 0 then some ⟨yy, mm, dd, hh, mi, 0⟩
               else none)
            else none))))))))) l

/-- First-some choice on options, written out so proofs can case on it. -/
def oElse (a b : Option PyDateTime) : Option PyDateTime :=
  match a with
  | some x => some x
  | none => b

/-- `try_parse_datetime` from `app.py`: falsy (missing or empty) date or time
gives `None`; otherwise the candidate strings `date ++ " " ++ time` and
`date ++ "T" ++ time` are tried in order, each first with
`datetime.fromisoformat` and then with the `DD/MM/YYYY HH:MM` fallback. -/
def try_parse_datetime (dateStr timeStr : Option String) : Option PyDateTime :=
  match dateStr, timeStr with
  | some d, some t =>
    if d = "" ∨ t = "" then none
    else
      let c1 := d.data ++ ' ' :: t.data
      let c2 := d.data ++ 'T' :: t.data
      oElse (fromiso c1) (oElse (strpDMY c1) (oElse (fromiso c2) (strpDMY c2)))
  | _, _ => none

/-- The parse strategy in the order the specification describes it: the
combined `date time` form, then the combined `date"T"time` form, then the
`DD/MM/YYYY HH:MM` fallback; the first form that parses wins. -/
def specOrderParse (dateStr timeStr : Option String) : Option PyDateTime :=
  match dateStr, timeStr with
  | some d, some t =>
    if d = "" ∨ t = "" then none
    else
      let c1 := d.data ++ ' ' :: t.data
      let c2 := d.data ++ 'T' :: t.data
      oElse (fromiso c1) (oElse (fromiso c2) (strpDMY c1))
  | _, _ => none

/-- Whitespace characters removed by Python's no-argument `str.strip()`:
exactly the code points on which `str.isspace()` is true — `\t`, `\n`,
`\x0b`, `\x0c`, `\r` (0x09-0x0d), the separators 0x1c-0x1f, the space
0x20, NEL 0x85, NBSP 0xa0, and the Unicode space/line/paragraph
separators 0x1680, 0x2000-0x200a, 0x2028, 0x2029, 0x202f, 0x205f,
0x3000. -/
def isWsChar (c : Char) : Bool :=
  let n := c.toNat
  (0x09 ≤ n && n ≤ 0x0d) || (0x1c ≤ n && n ≤ 0x20) || n == 0x85 ||
    n == 0xa0 || n == 0x1680 || (0x2000 ≤ n && n ≤ 0x200a) ||
    n == 0x2028 || n == 0x2029 || n == 0x202f || n == 0x205f || n == 0x3000

/-- Python `str.strip()`: drop whitespace from both ends. -/
def pyStrip (l : List Char) : List Char :=
  ((l.dropWhile isWsChar).reverse.dropWhile isWsChar).reverse

/-- Python `str.replace(c, "")`: remove every occurrence of one character. -/
def removeAll (c : Char) (l : List Char) : List Char :=
  l.filter (fun x => x ≠ c)

/-- The separator removals of `normalize_e164`, in the order the code applies
them: `" "`, `"-"`, `"("`, `")"`. -/
def removeSeps (l : List Char) : List Char :=
  removeAll ')' (removeAll '(' (removeAll '-' (removeAll ' ' l)))

/-- Python's `n.startswith("+")`. -/
def startsWithPlus : List Char → Bool
  | '+' :: _ => true
  | _ => false

/-- `normalize_e164` from `app.py`: falsy (empty) input is returned
unchanged; otherwise strip, remove separators, and either keep a leading
`'+'` form or prepend the default country code `cc`. -/
def normalize_e164 (cc : String) (number : String) : String :=
  if number = "" then number
  else if startsWithPlus (removeSeps (pyStrip number.data)) then
    ⟨removeSeps (pyStrip number.data)⟩
  else ⟨cc.data ++ removeSeps (pyStrip number.data)⟩

/-- The contact normalization contract as the specification words it: trim;
strip spaces, hyphens and parentheses (a single filter); if the result
begins with `'+'` return it unchanged; otherwise prepend the default
country-code; empty input returns empty input unchanged. -/
def specNormalize (cc : String) (number : String) : String :=
  if number = "" then number
  else
    let n := (pyStrip number.data).filter
      (fun c => c ≠ ' ' ∧ c ≠ '-' ∧ c ≠ '(' ∧ c ≠ ')')
    if n.head? = some '+' then ⟨n⟩ else ⟨cc.data ++ n⟩

/-- A stored Reminder as the scheduler reads it: `date`, `time`, `message`
are possibly-missing strings, `createdAt` an opaque creation identifier
(a timestamp in the store; truthy exactly when present), `calledAt` the
nullable dispatch timestamp. -/
structure Reminder where
  date : Option String
  time : Option String
  message : Option String
  createdAt : Option Nat
  calledAt : Option Nat
deriving DecidableEq, Repr

/-- A stored User document as projected by the scan query. -/
structure User where
  userId : String
  phoneNumber : Option String
  phoneRemindersEnabled : Bool
  reminders : List Reminder
deriving DecidableEq, Repr

/-- The `users` collection. -/
abbrev Store := List User

/-- A reminder with its `calledAt` erased; `eraseS` below captures every
field a scan pass is allowed to leave unchanged. -/
def eraseR (r : Reminder) : Reminder := { r with calledAt := none }

/-- A user with every reminder's `calledAt` erased. -/
def eraseU (u : User) : User := { u with reminders := u.reminders.map eraseR }

/-- A store with every `calledAt` erased: the pass- and mark-invariant
skeleton of the store. -/
def eraseS (s : Store) : Store := s.map eraseU

/-- The reminder stored at user index `ui`, reminder index `ri`. -/
def getRem (s : Store) (ui ri : Nat) : Option Reminder :=
  match s[ui]? with
  | some u => u.reminders[ri]?
  | none => none

/-- The `calledAt` field stored at position `(ui, ri)`. -/
def calledAtAt (s : Store) (ui ri : Nat) : Option Nat :=
  match getRem s ui ri with
  | some r => r.calledAt
  | none => none

/-- MongoDB `update_one`: update the first element satisfying `p`, if any. -/
def updateFirst (p : α → Bool) (f : α → α) : List α → List α
  | [] => []
  | a :: rest => if p a then f a :: rest else a :: updateFirst p f rest

/-- The value-tuple `$elemMatch` used by `mark_called` when `createdAt` is
missing: match on `date`, `time`, `message` and `calledAt == None`. -/
def tupleMatch (r q : Reminder) : Bool :=
  q.date == r.date && q.time == r.time && q.message == r.message
    && q.calledAt == none

/-- The array-element condition `mark_called` matches on: by `createdAt`
when the dispatched reminder carries one, else by the value tuple. -/
def remMatch (r : Reminder) (q : Reminder) : Bool :=
  match r.createdAt with
  | some c => q.createdAt == some c
  | none => tupleMatch r q

/-- `mark_called` from `app.py`: `update_one` on the first user matching
`userId` and (via the filter's array condition) containing a matching
reminder; the positional operator sets `calledAt` on the first matching
array element to the current time `ts`. -/
def mark_called (ts : Nat) (uid : String) (r : Reminder) (s : Store) : Store :=
  updateFirst
    (fun u => u.userId == uid && u.reminders.any (remMatch r))
    (fun u =>
      { u with
        reminders := updateFirst (remMatch r)
          (fun q => { q with calledAt := some ts }) u.reminders })
    s

/-- One scan pass's configuration and environment: configuration flags,
the pass's `datetime.now()`, window, country code, and oracles saying
whether the provider call and the mark write raised for the reminder at
each position.  `markTs` is the `datetime.now(utc)` the mark write stores;
`passOk` is whether the pass's store read itself succeeded (`False` models
a pass-level exception caught by the scheduler loop). -/
structure PassCfg where
  dbConfigured : Bool
  twilioConfigured : Bool
  now : PyDateTime
  windowSeconds : Nat
  countryCode : String
  provOk : Nat → Nat → Bool
  markOk : Nat → Nat → Bool
  markTs : Nat
  passOk : Bool

/-- Observable events of a pass: a parse attempt for the reminder at
`(ui, ri)`, or a provider invocation with the number handed to the provider
and whether the provider accepted it. -/
inductive Ev where
  | parsed (ui ri : Nat)
  | call (ui ri : Nat) (toNum : Option String) (ok : Bool)
deriving DecidableEq, Repr

/-- The candidate filter of the scan query as the code evaluates it: the
Python dict literal repeats the `"$ne"` key, so only `{"$ne": ""}` survives;
MongoDB's `$ne` admits documents where the field is null or absent. -/
def candidateUser (u : User) : Bool :=
  u.phoneRemindersEnabled && u.phoneNumber != some ""

/-- Events produced when the pass examines one snapshot reminder. -/
def evsOne (cfg : PassCfg) (ui : Nat) (num : Option String) (ri : Nat)
    (r : Reminder) : List Ev :=
  if r.calledAt.isSome then []
  else
    match try_parse_datetime r.date r.time with
    | none => [.parsed ui ri]
    | some dt =>
      let diff : Int := (toSec cfg.now : Int) - (toSec dt : Int)
      if 0 ≤ diff ∧ diff ≤ (cfg.windowSeconds : Int) then
        [.parsed ui ri,
         .call ui ri (num.map (normalize_e164 cfg.countryCode)) (cfg.provOk ui ri)]
      else [.parsed ui ri]

/-- Store effect of examining one snapshot reminder: `mark_called` runs
exactly when the reminder was dispatched, the provider call succeeded and
the mark write did not raise. -/
def stOne (cfg : PassCfg) (ui : Nat) (uid : String) (ri : Nat) (r : Reminder)
    (s : Store) : Store :=
  if r.calledAt.isSome then s
  else
    match try_parse_datetime r.date r.time with
    | none => s
    | some dt =>
      let diff : Int := (toSec cfg.now : Int) - (toSec dt : Int)
      if 0 ≤ diff ∧ diff ≤ (cfg.windowSeconds : Int) then
        if cfg.provOk ui ri then
          if cfg.markOk ui ri then mark_called cfg.markTs uid r s else s
        else s
      else s

/-- The per-reminder loop of `process_due_once` over one snapshot user's
reminder list, threading the store for mark writes. -/
def procRems (cfg : PassCfg) (ui : Nat) (uid : String) (num : Option String)
    (rs : List Reminder) (ri : Nat) (s : Store) : Store × List Ev :=
  match rs with
  | [] => (s, [])
  | r :: rest =>
    let s1 := stOne cfg ui uid ri r s
    let e1 := evsOne cfg ui num ri r
    let (s2, e2) := procRems cfg ui uid num rest (ri + 1) s1
    (s2, e1 ++ e2)

/-- The per-user loop of `process_due_once` over the snapshot user list. -/
def procUsers (cfg : PassCfg) (us : List User) (base : Nat) (s : Store) :
    Store × List Ev :=
  match us with
  | [] => (s, [])
  | u :: rest =>
    let (s1, e1) :=
      if candidateUser u then
        procRems cfg base u.userId u.phoneNumber u.reminders 0 s
      else (s, [])
    let (s2, e2) := procUsers cfg rest (base + 1) s1
    (s2, e1 ++ e2)

/-- `process_due_once` from `app.py`: a no-op unless the store and the
provider are configured; otherwise one pass over a snapshot of the
candidate users taken at pass start. -/
def process_due_once (cfg : PassCfg) (s : Store) : Store × List Ev :=
  if cfg.dbConfigured ∧ cfg.twilioConfigured then procUsers cfg s 0 s
  else (s, [])

/-- `scheduler_loop` from `app.py`, unrolled over a list of pass
environments: each iteration runs one pass inside `try`, so a pass whose
store read raises (`passOk = false`) changes nothing and the loop
continues with the next tick. -/
def scheduler_loop (cfgs : List PassCfg) (s : Store) :
    Store × List (List Ev) :=
  match cfgs with
  | [] => (s, [])
  | c :: rest =>
    let (s1, e1) := if c.passOk then process_due_once c s else (s, [])
    let (s2, e2) := scheduler_loop rest s1
    (s2, e1 :: e2)

/-- Whether an event is a provider invocation for position `(ui, ri)`. -/
def isCallAt (ui ri : Nat) : Ev → Bool
  | .call a b _ _ => a == ui && b == ri
  | _ => false

/-- Whether an event is a successful provider invocation at `(ui, ri)`. -/
def isSuccessCallAt (ui ri : Nat) : Ev → Bool
  | .call a b _ ok => a == ui && b == ri && ok
  | _ => false

/-- Whether an event is a parse attempt for position `(ui, ri)`. -/
def isParseAt (ui ri : Nat) : Ev → Bool
  | .parsed a b => a == ui && b == ri
  | _ => false

/-- Any event concerning position `(ui, ri)`. -/
def evAt (ui ri : Nat) (e : Ev) : Bool :=
  isCallAt ui ri e || isParseAt ui ri e

/-- The store is unambiguous for mark matching: user identifiers are
pairwise distinct, and every reminder carries a creation identifier,
pairwise distinct within its user. -/
def Sane (s : Store) : Prop :=
  (s.map (fun u => u.userId)).Nodup ∧
    ∀ u ∈ s, (∀ r ∈ u.reminders, r.createdAt.isSome = true) ∧
      (u.reminders.map (fun r => r.createdAt)).Nodup

instance : DecidablePred Sane := fun s => by
  unfold Sane; infer_instance

/-- The events of `procRems`, computed without the threaded store (the pass
decides from the snapshot only, so its events do not depend on the store). -/
def evsRems (cfg : PassCfg) (ui : Nat) (num : Option String)
    (rs : List Reminder) (ri : Nat) : List Ev :=
  match rs with
  | [] => []
  | r :: rest => evsOne cfg ui num ri r ++ evsRems cfg ui num rest (ri + 1)

/-- The events of `procUsers`, computed without the threaded store. -/
def evsUsers (cfg : PassCfg) (us : List User) (base : Nat) : List Ev :=
  match us with
  | [] => []
  | u :: rest =>
    (if candidateUser u then evsRems cfg base u.phoneNumber u.reminders 0
     else []) ++ evsUsers cfg rest (base + 1)

/-- The events of one full scan pass. -/
def evsPass (cfg : PassCfg) (s : Store) : List Ev :=
  if cfg.dbConfigured ∧ cfg.twilioConfigured then evsUsers cfg s 0 else []

/-- The position an event concerns. -/
def evIdx : Ev → Nat × Nat
  | .parsed a b => (a, b)
  | .call a b _ _ => (a, b)

/-- The array-element condition of §4.5 stated the specification's way:
prefer the creation identifier when present, else the conjunction of
`date`, `time`, `message` and `calledAt == null`. -/
def specRemMatch (r q : Reminder) : Prop :=
  match r.createdAt with
  | some c => q.createdAt = some c
  | none => q.date = r.date ∧ q.time = r.time ∧ q.message = r.message ∧
      q.calledAt = none

/- Concrete fixtures used by witnesses and counterexamples. -/

/-- A parseable reminder due at 2024-05-01 09:30, not yet called. -/
def remA : Reminder := ⟨some "2024-05-01", some "09:30", some "hi", some 1, none⟩

/-- A user owning `remA` with an un-normalized Indian number. -/
def usrA : User := ⟨"u1", some "98765 43210", true, [remA]⟩

/-- A one-user store. -/
def stA : Store := [usrA]

/-- A pass environment at 09:35 (300 s after `remA` is due) with the given
provider and mark-write outcomes. -/
def mkCfgA (prov mark : Bool) : PassCfg :=
  ⟨true, true, ⟨2024, 5, 1, 9, 35, 0⟩, 900, "+91",
   fun _ _ => prov, fun _ _ => mark, 100, true⟩

/-- A user whose `phoneNumber` field is absent (null). -/
def usrNoPhone : User := ⟨"u2", none, true, [remA]⟩

/-- A single-reminder store scheduled at the given date and time strings. -/
def st1 (d t : String) : Store := [⟨"u1", some "98765 43210", true,
  [⟨some d, some t, some "hi", some 1, none⟩]⟩]

/-- A pass environment with everything healthy at time `now`. -/
def cfgAt (now : PyDateTime) : PassCfg :=
  ⟨true, true, now, 900, "+91", fun _ _ => true, fun _ _ => true, 100, true⟩

/-- A one-user store whose only reminder has already been called. -/
def stCalled : Store := [⟨"u1", some "98765 43210", true,
  [⟨some "2024-05-01", some "09:30", some "hi", some 1, some 5⟩]⟩]

/-- A pass environment whose store read raises (pass-level failure). -/
def cfgFailedPass : PassCfg :=
  ⟨true, true, ⟨2024, 5, 1, 9, 35, 0⟩, 900, "+91",
   fun _ _ => true, fun _ _ => true, 100, false⟩

/-- The store component of `procRems`, on its own. -/
def stRems (cfg : PassCfg) (ui : Nat) (uid : String) (rs : List Reminder)
    (ri : Nat) (s : Store) : Store :=
  match rs with
  | [] => s
  | r :: rest => stRems cfg ui uid rest (ri + 1) (stOne cfg ui uid ri r s)

/-- The store component of `procUsers`, on its own. -/
def stUsers (cfg : PassCfg) (us : List User) (base : Nat) (s : Store) : Store :=
  match us with
  | [] => s
  | u :: rest =>
    stUsers cfg rest (base + 1)
      (if candidateUser u then stRems cfg base u.userId u.reminders 0 s else s)

/-- The store component of one full scan pass, on its own. -/
def stPass (cfg : PassCfg) (s : Store) : Store :=
  if cfg.dbConfigured ∧ cfg.twilioConfigured then stUsers cfg s 0 s else s

/-- The final store of the scheduler loop, on its own. -/
def loopSt (cfgs : List PassCfg) (s : Store) : Store :=
  match cfgs with
  | [] => s
  | c :: rest => loopSt rest (if c.passOk then stPass c s else s)

/-- The per-pass event lists of the scheduler loop, on their own. -/
def loopEvs (cfgs : List PassCfg) (s : Store) : List (List Ev) :=
  match cfgs with
  | [] => []
  | c :: rest =>
    (if c.passOk then evsPass c s else []) ::
      loopEvs rest (if c.passOk then stPass c s else s)

/-! ### Parser lemmas -/

theorem digit?_isDigit {c : Char} {n : Nat} (h : digit? c = some n) :
    c.isDigit = true := by
  unfold digit? at h
  split at h
  · assumption
  · exact absurd h (by simp)

theorem oElse_some {a b : Option PyDateTime} {v : PyDateTime}
    (h : oElse a b = some v) : a = some v ∨ (a = none ∧ b = some v) := by
  cases a <;> simp [oElse] at h ⊢ <;> simp [h]

theorem twoDigits_inv {l : List Char} {v : Nat} {rest : List Char}
    (h : twoDigits l = some (v, rest)) :
    ∃ a b, l = a :: b :: rest ∧ a.isDigit = true ∧ b.isDigit = true := by
  unfold twoDigits at h
  split at h
  · rename_i a b rest'
    split at h
    · rename_i x y hx hy
      simp at h
      obtain ⟨rfl, rfl⟩ := h
      exact ⟨a, b, rfl, digit?_isDigit hx, digit?_isDigit hy⟩
    · exact absurd h (by simp)
  · exact absurd h (by simp)

theorem oneDigit_inv {l : List Char} {v : Nat} {rest : List Char}
    (h : oneDigit l = some (v, rest)) :
    ∃ a, l = a :: rest ∧ a.isDigit = true := by
  unfold oneDigit at h
  split at h
  · rename_i a rest'
    split at h
    · rename_i x hx
      simp at h
      obtain ⟨rfl, rfl⟩ := h
      exact ⟨a, rfl, digit?_isDigit hx⟩
    · exact absurd h (by simp)
  · exact absurd h (by simp)

theorem expectCh_inv {c : Char} {k : List Char → Option PyDateTime}
    {l : List Char} {dt : PyDateTime} (h : expectCh c k l = some dt) :
    ∃ rest, l = c :: rest ∧ k rest = some dt := by
  unfold expectCh at h
  split at h
  · rename_i c' rest
    split at h
    · rename_i hc; exact ⟨rest, by rw [hc], h⟩
    · exact absurd h (by simp)
  · exact absurd h (by simp)

theorem year4_inv {k : Nat → List Char → Option PyDateTime} {l : List Char}
    {dt : PyDateTime} (h : year4 k l = some dt) :
    ∃ a b c d rest v, l = a :: b :: c :: d :: rest ∧ a.isDigit = true ∧
      b.isDigit = true ∧ c.isDigit = true ∧ d.isDigit = true ∧
      k v rest = some dt := by
  unfold year4 at h
  split at h
  · rename_i a b c d rest
    split at h
    · rename_i w x y z hw hx hy hz
      exact ⟨a, b, c, d, rest, _, rfl, digit?_isDigit hw, digit?_isDigit hx,
        digit?_isDigit hy, digit?_isDigit hz, h⟩
    · exact absurd h (by simp)
  · exact absurd h (by simp)

theorem pField_shape {lo2 hi2 : Nat} {z1 : Bool}
    {k : Nat → List Char → Option PyDateTime} {l : List Char} {dt : PyDateTime}
    (h : pField lo2 hi2 z1 k l = some dt) :
    (∃ v a b rest, l = a :: b :: rest ∧ a.isDigit = true ∧ b.isDigit = true ∧
      k v rest = some dt) ∨
    (∃ v a rest, l = a :: rest ∧ a.isDigit = true ∧ k v rest = some dt) := by
  unfold pField at h
  split at h
  · rename_i val heq
    split at heq
    · rename_i v rest htwo
      split at heq
      · obtain ⟨a, b, rfl, ha, hb⟩ := twoDigits_inv htwo
        simp at h
        subst h
        exact Or.inl ⟨v, a, b, rest, rfl, ha, hb, heq⟩
      · exact absurd heq (by simp)
    · exact absurd heq (by simp)
  · split at h
    · rename_i v rest hone
      split at h
      · obtain ⟨a, rfl, ha⟩ := oneDigit_inv hone
        exact Or.inr ⟨v, a, rest, rfl, ha, h⟩
      · exact absurd h (by simp)
    · exact absurd h (by simp)

theorem pField_pre {lo2 hi2 : Nat} {z1 : Bool}
    {k : Nat → List Char → Option PyDateTime} {l : List Char} {dt : PyDateTime}
    (h : pField lo2 hi2 z1 k l = some dt) :
    ∃ pre rest v, l = pre ++ rest ∧ (∀ c ∈ pre, c.isDigit = true) ∧
      k v rest = some dt := by
  rcases pField_shape h with ⟨v, a, b, rest, rfl, ha, hb, hk⟩ |
    ⟨v, a, rest, rfl, ha, hk⟩
  · exact ⟨[a, b], rest, v, rfl, by simp [ha, hb], hk⟩
  · exact ⟨[a], rest, v, rfl, by simp [ha], hk⟩

theorem strp_chars {l : List Char} {dt : PyDateTime}
    (h : strpDMY l = some dt) :
    ∀ c ∈ l, c.isDigit = true ∨ c = '/' ∨ c = ' ' ∨ c = ':' := by
  unfold strpDMY at h
  obtain ⟨p1, r1, v1, rfl, hp1, h1⟩ := pField_pre h
  obtain ⟨r2, rfl, h2⟩ := expectCh_inv h1
  obtain ⟨p2, r3, v2, rfl, hp2, h3⟩ := pField_pre h2
  obtain ⟨r4, rfl, h4⟩ := expectCh_inv h3
  obtain ⟨a, b, c, d, r5, v3, rfl, ha, hb, hc, hd, h5⟩ := year4_inv h4
  obtain ⟨r6, rfl, h6⟩ := expectCh_inv h5
  obtain ⟨p3, r7, v4, rfl, hp3, h7⟩ := pField_pre h6
  obtain ⟨r8, rfl, h8⟩ := expectCh_inv h7
  obtain ⟨p4, r9, v5, rfl, hp4, h9⟩ := pField_pre h8
  have hr9 : r9 = [] := by
    by_contra hne
    simp [hne] at h9
  subst hr9
  intro ch hch
  simp only [List.mem_append, List.mem_cons, List.not_mem_nil, or_false] at hch
  rcases hch with (hc1 | rfl | hc2 | rfl | rfl | rfl | rfl | rfl | rfl | hc3 |
    rfl | hc4)
  · exact Or.inl (hp1 ch hc1)
  · simp
  · exact Or.inl (hp2 ch hc2)
  · simp
  · exact Or.inl ha
  · exact Or.inl hb
  · exact Or.inl hc
  · exact Or.inl hd
  · simp
  · exact Or.inl (hp3 ch hc3)
  · simp
  · exact Or.inl (hp4 ch hc4)

theorem strp_noT {l : List Char} {dt : PyDateTime} (h : strpDMY l = some dt) :
    ('T' : Char) ∉ l := by
  intro hmem
  rcases strp_chars h 'T' hmem with hd | h' | h' | h' <;> simp_all

theorem strpT_none (dl tl : List Char) : strpDMY (dl ++ 'T' :: tl) = none := by
  cases h : strpDMY (dl ++ 'T' :: tl) with
  | none => rfl
  | some dt =>
    exact absurd (List.mem_append_right dl (List.mem_cons_self _ _))
      (strp_noT h)

theorem strp_slash {l : List Char} {dt : PyDateTime}
    (h : strpDMY l = some dt) :
    (∃ a rest, l = a :: '/' :: rest ∧ a.isDigit = true) ∨
    (∃ a b rest, l = a :: b :: '/' :: rest ∧ a.isDigit = true ∧
      b.isDigit = true) := by
  unfold strpDMY at h
  rcases pField_shape h with ⟨v, a, b, rest, rfl, ha, hb, hk⟩ |
    ⟨v, a, rest, rfl, ha, hk⟩
  · obtain ⟨r2, hr2, _⟩ := expectCh_inv hk
    exact Or.inr ⟨a, b, r2, by rw [hr2], ha, hb⟩
  · obtain ⟨r2, hr2, _⟩ := expectCh_inv hk
    exact Or.inl ⟨a, r2, by rw [hr2], ha⟩

theorem fromiso_shape {l : List Char} {dt : PyDateTime}
    (h : fromiso l = some dt) :
    ∃ y1 y2 y3 y4 rest, l = y1 :: y2 :: y3 :: y4 :: '-' :: rest ∧
      y1.isDigit = true ∧ y2.isDigit = true ∧ y3.isDigit = true ∧
      y4.isDigit = true := by
  unfold fromiso at h
  split at h
  · rename_i y1 y2 y3 y4 m1 m2 d1 d2 rest
    split at h
    · rename_i a b c d e f g hh ha hb hc hd _ _ _ _
      exact ⟨y1, y2, y3, y4, _, rfl, digit?_isDigit ha, digit?_isDigit hb,
        digit?_isDigit hc, digit?_isDigit hd⟩
    · exact absurd h (by simp)
  · exact absurd h (by simp)

theorem iso_c2_none {dl tl tl2 : List Char} {dt : PyDateTime}
    (h : strpDMY (dl ++ ' ' :: tl) = some dt) :
    fromiso (dl ++ 'T' :: tl2) = none := by
  cases hiso : fromiso (dl ++ 'T' :: tl2) with
  | none => rfl
  | some dt2 =>
    exfalso
    obtain ⟨y1, y2, y3, y4, rest, heq, h1, h2, h3, h4⟩ := fromiso_shape hiso
    rcases strp_slash h with ⟨a, r, heqs, ha⟩ | ⟨a, b, r, heqs, ha, hb⟩
    · -- slash at position 1 of `dl ++ ' ' :: tl`
      match dl, heq, heqs with
      | [], heq, heqs =>
        simp only [List.nil_append, List.cons.injEq] at heq
        obtain ⟨hT, -⟩ := heq
        rw [← hT] at h1
        exact absurd h1 (by decide)
      | [e0], heq, heqs =>
        simp only [List.cons_append, List.nil_append, List.cons.injEq] at heqs
        obtain ⟨-, hbad, -⟩ := heqs
        exact absurd hbad (by decide)
      | e0 :: e1 :: dl2, heq, heqs =>
        simp only [List.cons_append, List.cons.injEq] at heq heqs
        obtain ⟨-, h12, -⟩ := heq
        obtain ⟨-, hsl, -⟩ := heqs
        rw [← h12, hsl] at h2
        exact absurd h2 (by decide)
    · -- slash at position 2 of `dl ++ ' ' :: tl`
      match dl, heq, heqs with
      | [], heq, heqs =>
        simp only [List.nil_append, List.cons.injEq] at heq
        obtain ⟨hT, -⟩ := heq
        rw [← hT] at h1
        exact absurd h1 (by decide)
      | [e0], heq, heqs =>
        simp only [List.cons_append, List.nil_append, List.cons.injEq] at heq
        obtain ⟨-, hT, -⟩ := heq
        rw [← hT] at h2
        exact absurd h2 (by decide)
      | [e0, e1], heq, heqs =>
        simp only [List.cons_append, List.nil_append, List.cons.injEq] at heqs
        obtain ⟨-, -, hbad, -⟩ := heqs
        exact absurd hbad (by decide)
      | e0 :: e1 :: e2 :: dl2, heq, heqs =>
        simp only [List.cons_append, List.cons.injEq] at heq heqs
        obtain ⟨-, -, h13, -⟩ := heq
        obtain ⟨-, -, hsl, -⟩ := heqs
        rw [← h13, hsl] at h3
        exact absurd h3 (by decide)

theorem tryparse_eq_specOrder (d t : Option String) :
    try_parse_datetime d t = specOrderParse d t := by
  match d, t with
  | none, none => rfl
  | none, some _ => rfl
  | some _, none => rfl
  | some d, some t =>
    unfold try_parse_datetime specOrderParse
    by_cases hempty : d = "" ∨ t = ""
    · simp [hempty]
    · simp only [if_neg hempty]
      cases h1 : fromiso (d.data ++ ' ' :: t.data) with
      | some v => simp [oElse]
      | none =>
        simp only [oElse]
        cases h2 : strpDMY (d.data ++ ' ' :: t.data) with
        | some v =>
          rw [iso_c2_none h2]
        | none =>
          cases h3 : fromiso (d.data ++ 'T' :: t.data) with
          | some v => rfl
          | none => rw [strpT_none]

/-! ### Normalization lemmas -/

theorem dropWhile_all_false {p : Char → Bool} {l : List Char}
    (h : ∀ c ∈ l, p c = false) : l.dropWhile p = l := by
  cases l with
  | nil => rfl
  | cons a l => simp [List.dropWhile, h a (List.mem_cons_self a l)]

theorem mem_of_mem_pyStrip {c : Char} {l : List Char} (h : c ∈ pyStrip l) :
    c ∈ l := by
  unfold pyStrip at h
  rw [List.mem_reverse] at h
  have h2 := (List.dropWhile_sublist isWsChar).mem h
  rw [List.mem_reverse] at h2
  exact (List.dropWhile_sublist isWsChar).mem h2

theorem pyStrip_eq_self {l : List Char} (h : ∀ c ∈ l, isWsChar c = false) :
    pyStrip l = l := by
  unfold pyStrip
  rw [dropWhile_all_false h]
  rw [dropWhile_all_false (fun c hc => h c (List.mem_reverse.mp hc))]
  exact l.reverse_reverse

theorem removeSeps_eq_filter (l : List Char) :
    removeSeps l =
      l.filter (fun c => c ≠ ' ' ∧ c ≠ '-' ∧ c ≠ '(' ∧ c ≠ ')') := by
  unfold removeSeps removeAll
  rw [List.filter_filter, List.filter_filter, List.filter_filter]
  refine List.filter_congr ?_
  intro x _
  by_cases h1 : x = ' ' <;> by_cases h2 : x = '-' <;> by_cases h3 : x = '(' <;>
    by_cases h4 : x = ')' <;> simp [h1, h2, h3, h4]

theorem mem_removeSeps {c : Char} {l : List Char} (h : c ∈ removeSeps l) :
    c ∈ l ∧ c ≠ ' ' ∧ c ≠ '-' ∧ c ≠ '(' ∧ c ≠ ')' := by
  rw [removeSeps_eq_filter] at h
  have := List.mem_filter.mp h
  refine ⟨this.1, ?_⟩
  have hb := this.2
  simpa using hb

theorem removeSeps_eq_self {l : List Char}
    (h : ∀ c ∈ l, c ≠ ' ' ∧ c ≠ '-' ∧ c ≠ '(' ∧ c ≠ ')') :
    removeSeps l = l := by
  rw [removeSeps_eq_filter]
  rw [List.filter_eq_self]
  intro a ha
  simpa using h a ha

theorem normalize_cases (cc s : String) (hs : s ≠ "") :
    (∃ rest, removeSeps (pyStrip s.data) = '+' :: rest ∧
      normalize_e164 cc s = ⟨removeSeps (pyStrip s.data)⟩) ∨
    ((∀ rest, removeSeps (pyStrip s.data) ≠ '+' :: rest) ∧
      normalize_e164 cc s = ⟨cc.data ++ removeSeps (pyStrip s.data)⟩) := by
  unfold normalize_e164
  rw [if_neg hs]
  cases hn : removeSeps (pyStrip s.data) with
  | nil => exact Or.inr ⟨fun rest h => by simp at h, by simp [startsWithPlus]⟩
  | cons c rest =>
    by_cases hc : c = '+'
    · subst hc
      exact Or.inl ⟨rest, rfl, by simp [startsWithPlus]⟩
    · refine Or.inr ⟨fun rest' h => hc (by injection h), ?_⟩
      have hsw : startsWithPlus (c :: rest) = false := by
        unfold startsWithPlus
        split
        · rename_i heq
          injection heq with h1 _
          exact absurd h1 hc
        · rfl
      rw [hsw]
      simp

theorem mk_ne_empty {q : List Char} (h : q ≠ []) : (⟨q⟩ : String) ≠ "" := by
  intro hq
  exact h (by simpa using congrArg String.data hq)

theorem normalize_clean_plus (cc : String) (q : List Char)
    (hq : q.head? = some '+')
    (hclean : ∀ c ∈ q, isWsChar c = false ∧ c ≠ ' ' ∧ c ≠ '-' ∧ c ≠ '(' ∧
      c ≠ ')') :
    normalize_e164 cc ⟨q⟩ = ⟨q⟩ := by
  cases q with
  | nil => simp at hq
  | cons c rest =>
    simp only [List.head?_cons, Option.some.injEq] at hq
    subst hq
    unfold normalize_e164
    rw [if_neg (mk_ne_empty (by simp))]
    have hdata : (⟨'+' :: rest⟩ : String).data = '+' :: rest := rfl
    rw [hdata]
    rw [pyStrip_eq_self (fun c hc => (hclean c hc).1)]
    rw [removeSeps_eq_self (fun c hc => (hclean c hc).2)]
    simp [startsWithPlus]

theorem normalize_eq_specNormalize (cc s : String) :
    normalize_e164 cc s = specNormalize cc s := by
  by_cases hs : s = ""
  · subst hs; rfl
  · have hfilt : (pyStrip s.data).filter
        (fun c => c ≠ ' ' ∧ c ≠ '-' ∧ c ≠ '(' ∧ c ≠ ')') =
        removeSeps (pyStrip s.data) := (removeSeps_eq_filter _).symm
    unfold specNormalize
    rw [if_neg hs, hfilt]
    rcases normalize_cases cc s hs with ⟨rest, hn, hres⟩ | ⟨hnp, hres⟩
    · rw [hres, hn]
      simp
    · rw [hres]
      cases hn : removeSeps (pyStrip s.data) with
      | nil => simp
      | cons c r =>
        have hc : c ≠ '+' := fun h => hnp r (by rw [hn, h])
        simp [hc]

/-! ### updateFirst and mark_called lemmas -/

theorem updateFirst_map_inv {α β : Type} {g : α → β} {p : α → Bool} {f : α → α}
    (hg : ∀ a, g (f a) = g a) (l : List α) :
    (updateFirst p f l).map g = l.map g := by
  induction l with
  | nil => rfl
  | cons a l ih =>
    unfold updateFirst
    by_cases hp : p a
    · simp [hp, hg a]
    · simp [hp, ih]

theorem updateFirst_no_match {α : Type} {p : α → Bool} {f : α → α}
    {l : List α} (h : ∀ a ∈ l, p a = false) : updateFirst p f l = l := by
  induction l with
  | nil => rfl
  | cons a l ih =>
    unfold updateFirst
    rw [h a (List.mem_cons_self a l)]
    simp only [Bool.false_eq_true, if_false, List.cons.injEq, true_and]
    exact ih (fun b hb => h b (List.mem_cons_of_mem a hb))

theorem updateFirst_first {α : Type} {p : α → Bool} {f : α → α} {l : List α}
    {i : Nat} {a : α} (ha : l[i]? = some a) (hp : p a = true)
    (hfirst : ∀ j b, j < i → l[j]? = some b → p b = false) :
    updateFirst p f l = l.set i (f a) := by
  induction l generalizing i with
  | nil => simp at ha
  | cons x l ih =>
    cases i with
    | zero =>
      rw [List.getElem?_cons_zero] at ha
      injection ha with ha
      subst ha
      unfold updateFirst
      rw [hp]
      simp
    | succ n =>
      rw [List.getElem?_cons_succ] at ha
      have hx : p x = false :=
        hfirst 0 x (Nat.succ_pos n) List.getElem?_cons_zero
      unfold updateFirst
      rw [hx]
      simp only [Bool.false_eq_true, if_false, List.set_cons_succ,
        List.cons.injEq, true_and]
      exact ih ha (fun j b hj hb =>
        hfirst (j + 1) b (Nat.succ_lt_succ hj) (by rw [List.getElem?_cons_succ]; exact hb))

theorem updateFirst_getElem? {α : Type} {p : α → Bool} {f : α → α}
    (l : List α) (i : Nat) :
    (updateFirst p f l)[i]? = l[i]? ∨
    ∃ a, l[i]? = some a ∧ p a = true ∧
      (updateFirst p f l)[i]? = some (f a) := by
  induction l generalizing i with
  | nil => exact Or.inl rfl
  | cons x l ih =>
    unfold updateFirst
    by_cases hp : p x
    · rw [if_pos hp]
      cases i with
      | zero => exact Or.inr ⟨x, List.getElem?_cons_zero, hp, List.getElem?_cons_zero⟩
      | succ n => exact Or.inl (by rw [List.getElem?_cons_succ, List.getElem?_cons_succ])
    · rw [if_neg hp]
      cases i with
      | zero => exact Or.inl (by rw [List.getElem?_cons_zero, List.getElem?_cons_zero])
      | succ n =>
        rw [List.getElem?_cons_succ, List.getElem?_cons_succ]
        exact ih n

theorem updateFirst_cases {α : Type} (p : α → Bool) (f : α → α) (l : List α) :
    (updateFirst p f l = l ∧ ∀ a ∈ l, p a = false) ∨
    ∃ i a, l[i]? = some a ∧ p a = true ∧
      (∀ j b, j < i → l[j]? = some b → p b = false) ∧
      updateFirst p f l = l.set i (f a) := by
  induction l with
  | nil => exact Or.inl ⟨rfl, by simp⟩
  | cons x l ih =>
    by_cases hp : p x
    · refine Or.inr ⟨0, x, List.getElem?_cons_zero, hp, ?_, ?_⟩
      · intro j b hj; omega
      · unfold updateFirst; rw [hp]; simp
    · rcases ih with ⟨heq, hall⟩ | ⟨i, a, ha, hpa, hfirst, heq⟩
      · refine Or.inl ⟨?_, ?_⟩
        · unfold updateFirst
          rw [if_neg hp, heq]
        · intro a ha
          rcases List.mem_cons.mp ha with rfl | hmem
          · exact Bool.eq_false_iff.mpr hp
          · exact hall a hmem
      · refine Or.inr ⟨i + 1, a, by rw [List.getElem?_cons_succ]; exact ha, hpa,
          ?_, ?_⟩
        · intro j b hj hb
          cases j with
          | zero =>
            rw [List.getElem?_cons_zero] at hb
            injection hb with hb
            subst hb
            exact Bool.eq_false_iff.mpr hp
          | succ m =>
            rw [List.getElem?_cons_succ] at hb
            exact hfirst m b (by omega) hb
        · unfold updateFirst
          rw [if_neg hp, List.set_cons_succ, heq]

theorem eraseS_mark_called (ts : Nat) (uid : String) (r : Reminder)
    (s : Store) : eraseS (mark_called ts uid r s) = eraseS s := by
  unfold eraseS mark_called
  refine updateFirst_map_inv ?_ s
  intro u
  unfold eraseU
  have h2 : (updateFirst (remMatch r) (fun q => { q with calledAt := some ts })
      u.reminders).map eraseR = u.reminders.map eraseR :=
    updateFirst_map_inv (g := eraseR)
      (f := fun q => { q with calledAt := some ts }) (fun q => rfl) u.reminders
  simp [h2]

theorem calledAtAt_mark_called (ts : Nat) (uid : String) (r : Reminder)
    (s : Store) (ui ri : Nat) :
    calledAtAt (mark_called ts uid r s) ui ri = calledAtAt s ui ri ∨
    calledAtAt (mark_called ts uid r s) ui ri = some ts := by
  unfold calledAtAt getRem mark_called
  rcases updateFirst_getElem?
    (p := fun u => u.userId == uid && u.reminders.any (remMatch r))
    (f := fun u =>
      { u with
        reminders := updateFirst (remMatch r)
          (fun q => { q with calledAt := some ts }) u.reminders }) s ui with
    h | ⟨u, hu, hpu, hu'⟩
  · rw [h]
    exact Or.inl rfl
  · rw [hu', hu]
    rcases updateFirst_getElem? (p := remMatch r)
      (f := fun q => { q with calledAt := some ts }) u.reminders ri with
      h2 | ⟨q, hq, hpq, hq'⟩
    · dsimp only
      rw [h2]
      exact Or.inl rfl
    · dsimp only
      rw [hq']
      exact Or.inr rfl

theorem remMatch_createdAt {r q : Reminder} {c : Nat}
    (hrc : r.createdAt = some c) :
    remMatch r q = (q.createdAt == some c) := by
  unfold remMatch
  rw [hrc]

theorem mark_called_exact {s : Store} {ui ri : Nat} {u : User} {r0 : Reminder}
    (r : Reminder) (ts c : Nat)
    (hu : s[ui]? = some u) (hr0 : u.reminders[ri]? = some r0)
    (hrc : r.createdAt = some c) (hr0c : r0.createdAt = some c)
    (huser : ∀ j u', j ≠ ui → s[j]? = some u' → u'.userId ≠ u.userId)
    (hrem : ∀ k q, k ≠ ri → u.reminders[k]? = some q →
      q.createdAt ≠ some c) :
    mark_called ts u.userId r s =
      s.set ui
        { u with
          reminders := u.reminders.set ri { r0 with calledAt := some ts } } := by
  have hmatch : remMatch r r0 = true := by
    rw [remMatch_createdAt hrc, hr0c]
    simp
  have hinner : updateFirst (remMatch r)
      (fun q => { q with calledAt := some ts }) u.reminders =
      u.reminders.set ri { r0 with calledAt := some ts } := by
    refine updateFirst_first hr0 hmatch ?_
    intro k q hk hq
    rw [remMatch_createdAt hrc]
    exact beq_eq_false_iff_ne.mpr (hrem k q (by omega) hq)
  have hpu : (u.userId == u.userId && u.reminders.any (remMatch r)) = true := by
    rw [beq_self_eq_true]
    simp only [Bool.true_and]
    exact List.any_eq_true.mpr ⟨r0, List.getElem?_mem hr0, hmatch⟩
  have houter := updateFirst_first
    (p := fun v => v.userId == u.userId && v.reminders.any (remMatch r))
    (f := fun u =>
      { u with
        reminders := updateFirst (remMatch r)
          (fun q => { q with calledAt := some ts }) u.reminders })
    hu hpu ?_
  · unfold mark_called
    rw [houter]
    dsimp only
    rw [hinner]
  · intro j b hj hb
    have hne := huser j b (by omega) hb
    simp [hne]

/-! ### Separation of the pass into store effect and events -/

theorem procRems_eq (cfg : PassCfg) (ui : Nat) (uid : String)
    (num : Option String) (rs : List Reminder) (ri : Nat) (s : Store) :
    procRems cfg ui uid num rs ri s =
      (stRems cfg ui uid rs ri s, evsRems cfg ui num rs ri) := by
  induction rs generalizing ri s with
  | nil => rfl
  | cons r rest ih =>
    unfold procRems stRems evsRems
    dsimp only
    rw [ih]

theorem procUsers_eq (cfg : PassCfg) (us : List User) (base : Nat) (s : Store) :
    procUsers cfg us base s =
      (stUsers cfg us base s, evsUsers cfg us base) := by
  induction us generalizing base s with
  | nil => rfl
  | cons u rest ih =>
    unfold procUsers stUsers evsUsers
    by_cases hc : candidateUser u
    · rw [if_pos hc, if_pos hc, if_pos hc, procRems_eq]
      dsimp only
      rw [ih]
    · rw [if_neg hc, if_neg hc, if_neg hc]
      dsimp only
      rw [ih]

theorem process_due_once_eq (cfg : PassCfg) (s : Store) :
    process_due_once cfg s = (stPass cfg s, evsPass cfg s) := by
  unfold process_due_once stPass evsPass
  by_cases hc : cfg.dbConfigured ∧ cfg.twilioConfigured
  · rw [if_pos hc, if_pos hc, if_pos hc, procUsers_eq]
  · rw [if_neg hc, if_neg hc, if_neg hc]

theorem scheduler_loop_eq (cfgs : List PassCfg) (s : Store) :
    scheduler_loop cfgs s = (loopSt cfgs s, loopEvs cfgs s) := by
  induction cfgs generalizing s with
  | nil => rfl
  | cons c rest ih =>
    unfold scheduler_loop loopSt loopEvs
    by_cases hc : c.passOk
    · rw [if_pos hc, if_pos hc, if_pos hc, process_due_once_eq]
      dsimp only
      rw [ih]
    · rw [if_neg hc, if_neg hc, if_neg hc]
      dsimp only
      rw [ih]

/-! ### Event inversion and forward lemmas -/

theorem evsOne_mem {cfg : PassCfg} {ui : Nat} {num : Option String} {ri : Nat}
    {r : Reminder} {e : Ev} (h : e ∈ evsOne cfg ui num ri r) :
    r.calledAt = none ∧ evIdx e = (ui, ri) := by
  unfold evsOne at h
  split at h
  · simp at h
  · rename_i hca
    have hcn : r.calledAt = none := by
      cases hc : r.calledAt
      · rfl
      · rw [hc] at hca; simp at hca
    refine ⟨hcn, ?_⟩
    split at h
    · simp at h
      subst h
      rfl
    · dsimp only at h
      split at h
      · simp at h
        rcases h with rfl | rfl <;> rfl
      · simp at h
        subst h
        rfl

theorem evsOne_call_inv {cfg : PassCfg} {ui : Nat} {num : Option String}
    {ri : Nat} {r : Reminder} {a b : Nat} {n : Option String} {ok : Bool}
    (h : Ev.call a b n ok ∈ evsOne cfg ui num ri r) :
    a = ui ∧ b = ri ∧ r.calledAt = none ∧
    n = num.map (normalize_e164 cfg.countryCode) ∧ ok = cfg.provOk ui ri ∧
    ∃ dt, try_parse_datetime r.date r.time = some dt ∧
      0 ≤ (toSec cfg.now : Int) - (toSec dt : Int) ∧
      (toSec cfg.now : Int) - (toSec dt : Int) ≤ (cfg.windowSeconds : Int) := by
  have hcn := (evsOne_mem h).1
  unfold evsOne at h
  rw [hcn] at h
  simp only [Option.isSome_none, Bool.false_eq_true, if_false] at h
  split at h
  · simp at h
  · rename_i dt hdt
    split at h
    · rename_i hdue
      simp only [List.mem_cons, List.not_mem_nil, or_false] at h
      rcases h with h | h
      · exact absurd h (by simp)
      · injection h with h1 h2 h3 h4
        exact ⟨h1, h2, hcn, h3, h4, dt, hdt, hdue.1, hdue.2⟩
    · simp at h

theorem evsOne_call_fwd {cfg : PassCfg} {ui : Nat} {num : Option String}
    {ri : Nat} {r : Reminder} {dt : PyDateTime}
    (hca : r.calledAt = none) (hp : try_parse_datetime r.date r.time = some dt)
    (hlo : 0 ≤ (toSec cfg.now : Int) - (toSec dt : Int))
    (hhi : (toSec cfg.now : Int) - (toSec dt : Int) ≤ (cfg.windowSeconds : Int)) :
    Ev.call ui ri (num.map (normalize_e164 cfg.countryCode)) (cfg.provOk ui ri)
      ∈ evsOne cfg ui num ri r := by
  unfold evsOne
  rw [hca]
  simp only [Option.isSome_none, Bool.false_eq_true, if_false, hp]
  rw [if_pos ⟨hlo, hhi⟩]
  simp

theorem evsOne_parsed_fwd {cfg : PassCfg} {ui : Nat} {num : Option String}
    {ri : Nat} {r : Reminder} (hca : r.calledAt = none) :
    Ev.parsed ui ri ∈ evsOne cfg ui num ri r := by
  unfold evsOne
  rw [hca]
  simp only [Option.isSome_none, Bool.false_eq_true, if_false]
  split
  · simp
  · split <;> simp

theorem evsRems_inv {cfg : PassCfg} {ui : Nat} {num : Option String}
    {rs : List Reminder} {ri : Nat} {e : Ev}
    (h : e ∈ evsRems cfg ui num rs ri) :
    ∃ k r, rs[k]? = some r ∧ e ∈ evsOne cfg ui num (ri + k) r := by
  induction rs generalizing ri with
  | nil => simp [evsRems] at h
  | cons r rest ih =>
    unfold evsRems at h
    rcases List.mem_append.mp h with h1 | h2
    · exact ⟨0, r, List.getElem?_cons_zero, by rw [Nat.add_zero]; exact h1⟩
    · obtain ⟨k, r', hk, hmem⟩ := ih h2
      exact ⟨k + 1, r', by rw [List.getElem?_cons_succ]; exact hk,
        by rw [show ri + (k + 1) = ri + 1 + k by omega]; exact hmem⟩

theorem evsRems_fwd {cfg : PassCfg} {ui : Nat} {num : Option String}
    {rs : List Reminder} {ri : Nat} {e : Ev} {k : Nat} {r : Reminder}
    (hk : rs[k]? = some r) (h : e ∈ evsOne cfg ui num (ri + k) r) :
    e ∈ evsRems cfg ui num rs ri := by
  induction rs generalizing ri k with
  | nil => simp at hk
  | cons r0 rest ih =>
    unfold evsRems
    rw [List.mem_append]
    cases k with
    | zero =>
      rw [List.getElem?_cons_zero] at hk
      injection hk with hk
      subst hk
      rw [Nat.add_zero] at h
      exact Or.inl h
    | succ m =>
      rw [List.getElem?_cons_succ] at hk
      refine Or.inr (ih hk ?_)
      rw [show ri + 1 + m = ri + (m + 1) by omega]
      exact h

theorem evsUsers_inv {cfg : PassCfg} {us : List User} {base : Nat} {e : Ev}
    (h : e ∈ evsUsers cfg us base) :
    ∃ k u, us[k]? = some u ∧ candidateUser u = true ∧
      e ∈ evsRems cfg (base + k) u.phoneNumber u.reminders 0 := by
  induction us generalizing base with
  | nil => simp [evsUsers] at h
  | cons u rest ih =>
    unfold evsUsers at h
    rcases List.mem_append.mp h with h1 | h2
    · split at h1
      · rename_i hc
        exact ⟨0, u, List.getElem?_cons_zero, hc,
          by rw [Nat.add_zero]; exact h1⟩
      · simp at h1
    · obtain ⟨k, u', hk, hc, hmem⟩ := ih h2
      exact ⟨k + 1, u', by rw [List.getElem?_cons_succ]; exact hk, hc,
        by rw [show base + (k + 1) = base + 1 + k by omega]; exact hmem⟩

theorem evsUsers_fwd {cfg : PassCfg} {us : List User} {base : Nat} {e : Ev}
    {k : Nat} {u : User} (hk : us[k]? = some u) (hc : candidateUser u = true)
    (h : e ∈ evsRems cfg (base + k) u.phoneNumber u.reminders 0) :
    e ∈ evsUsers cfg us base := by
  induction us generalizing base k with
  | nil => simp at hk
  | cons u0 rest ih =>
    unfold evsUsers
    rw [List.mem_append]
    cases k with
    | zero =>
      rw [List.getElem?_cons_zero] at hk
      injection hk with hk
      subst hk
      rw [Nat.add_zero] at h
      rw [if_pos hc]
      exact Or.inl h
    | succ m =>
      rw [List.getElem?_cons_succ] at hk
      refine Or.inr (ih hk ?_)
      rw [show base + 1 + m = base + (m + 1) by omega]
      exact h

theorem isCallAt_idx {ui ri : Nat} {e : Ev} (h : isCallAt ui ri e = true) :
    evIdx e = (ui, ri) := by
  cases e with
  | parsed a b => simp [isCallAt] at h
  | call a b n ok =>
    simp only [isCallAt, Bool.and_eq_true, beq_iff_eq] at h
    simp [evIdx, h.1, h.2]

theorem isParseAt_idx {ui ri : Nat} {e : Ev} (h : isParseAt ui ri e = true) :
    evIdx e = (ui, ri) := by
  cases e with
  | parsed a b =>
    simp only [isParseAt, Bool.and_eq_true, beq_iff_eq] at h
    simp [evIdx, h.1, h.2]
  | call a b n ok => simp [isParseAt] at h

theorem evAt_idx {ui ri : Nat} {e : Ev} (h : evAt ui ri e = true) :
    evIdx e = (ui, ri) := by
  rcases Bool.or_eq_true_iff.mp h with h1 | h1
  · exact isCallAt_idx h1
  · exact isParseAt_idx h1

theorem isSuccessCallAt_isCallAt {ui ri : Nat} {e : Ev}
    (h : isSuccessCallAt ui ri e = true) : isCallAt ui ri e = true := by
  cases e with
  | parsed a b => simp [isSuccessCallAt] at h
  | call a b n ok =>
    simp only [isSuccessCallAt, Bool.and_eq_true, beq_iff_eq] at h
    simp [isCallAt, h.1.1, h.1.2]

theorem isSuccessCallAt_inv {ui ri : Nat} {e : Ev}
    (h : isSuccessCallAt ui ri e = true) :
    ∃ n, e = Ev.call ui ri n true := by
  cases e with
  | parsed a b => simp [isSuccessCallAt] at h
  | call a b n ok =>
    simp only [isSuccessCallAt, Bool.and_eq_true, beq_iff_eq] at h
    exact ⟨n, by rw [h.1.1, h.1.2, h.2]⟩

/-! ### Per-pass call counting -/

theorem countP_zero_of_idx {uj rj : Nat} {l : List Ev}
    (h : ∀ e ∈ l, evIdx e ≠ (uj, rj)) : l.countP (isCallAt uj rj) = 0 :=
  List.countP_eq_zero.mpr (fun e he hc => h e he (isCallAt_idx hc))

theorem countP_callAt_evsOne (cfg : PassCfg) (ui : Nat) (num : Option String)
    (ri : Nat) (r : Reminder) (uj rj : Nat) :
    (evsOne cfg ui num ri r).countP (isCallAt uj rj) ≤ 1 := by
  unfold evsOne
  split
  · simp
  · split
    · simp [List.countP_cons, isCallAt]
    · dsimp only
      split
      · rw [List.countP_cons, List.countP_cons, List.countP_nil]
        have hp : isCallAt uj rj (Ev.parsed ui ri) = false := rfl
        rw [hp]
        split <;> simp
      · simp [List.countP_cons, isCallAt]

theorem countP_callAt_evsRems (cfg : PassCfg) (ui : Nat) (num : Option String)
    (rs : List Reminder) (ri : Nat) (uj rj : Nat) :
    (evsRems cfg ui num rs ri).countP (isCallAt uj rj) ≤ 1 := by
  induction rs generalizing ri with
  | nil => simp [evsRems]
  | cons r rest ih =>
    unfold evsRems
    rw [List.countP_append]
    by_cases hj : uj = ui ∧ rj = ri
    · have htail : (evsRems cfg ui num rest (ri + 1)).countP
          (isCallAt uj rj) = 0 := by
        refine countP_zero_of_idx ?_
        intro e he
        obtain ⟨k, r', hk, hmem⟩ := evsRems_inv he
        rw [(evsOne_mem hmem).2, hj.1, hj.2]
        intro hcon
        injection hcon with hc1 hc2
        omega
      rw [htail]
      have := countP_callAt_evsOne cfg ui num ri r uj rj
      omega
    · have hhead : (evsOne cfg ui num ri r).countP (isCallAt uj rj) = 0 := by
        refine countP_zero_of_idx ?_
        intro e he
        rw [(evsOne_mem he).2]
        intro hcon
        injection hcon with hc1 hc2
        exact hj ⟨hc1.symm, hc2.symm⟩
      rw [hhead]
      simpa using ih (ri + 1)

theorem countP_callAt_evsUsers (cfg : PassCfg) (us : List User) (base : Nat)
    (uj rj : Nat) :
    (evsUsers cfg us base).countP (isCallAt uj rj) ≤ 1 := by
  induction us generalizing base with
  | nil => simp [evsUsers]
  | cons u rest ih =>
    unfold evsUsers
    rw [List.countP_append]
    by_cases hj : uj = base
    · have htail : (evsUsers cfg rest (base + 1)).countP
          (isCallAt uj rj) = 0 := by
        refine countP_zero_of_idx ?_
        intro e he
        obtain ⟨k, u', hk, hc, hmem⟩ := evsUsers_inv he
        obtain ⟨k2, r', hk2, hmem2⟩ := evsRems_inv hmem
        rw [(evsOne_mem hmem2).2, hj]
        intro hcon
        injection hcon with hc1 hc2
        omega
      rw [htail]
      have hhead : (if candidateUser u then
          evsRems cfg base u.phoneNumber u.reminders 0 else []).countP
          (isCallAt uj rj) ≤ 1 := by
        split
        · exact countP_callAt_evsRems cfg base u.phoneNumber u.reminders 0 uj rj
        · simp
      omega
    · have hhead : (if candidateUser u then
          evsRems cfg base u.phoneNumber u.reminders 0 else []).countP
          (isCallAt uj rj) = 0 := by
        split
        · refine countP_zero_of_idx ?_
          intro e he
          obtain ⟨k2, r', hk2, hmem2⟩ := evsRems_inv he
          rw [(evsOne_mem hmem2).2]
          intro hcon
          injection hcon with hc1 hc2
          exact hj hc1.symm
        · simp
      rw [hhead]
      simpa using ih (base + 1)

theorem countP_callAt_evsPass (cfg : PassCfg) (s : Store) (uj rj : Nat) :
    (evsPass cfg s).countP (isCallAt uj rj) ≤ 1 := by
  unfold evsPass
  split
  · exact countP_callAt_evsUsers cfg s 0 uj rj
  · simp

theorem countP_successAt_le (l : List Ev) (uj rj : Nat) :
    l.countP (isSuccessCallAt uj rj) ≤ l.countP (isCallAt uj rj) :=
  List.countP_mono_left (fun _ _ => isSuccessCallAt_isCallAt)

/-! ### Store-effect characterization -/

theorem stOne_eq (cfg : PassCfg) (ui : Nat) (uid : String)
    (num : Option String) (ri : Nat) (r : Reminder) (s : Store) :
    stOne cfg ui uid ri r s =
      if ((evsOne cfg ui num ri r).any (isSuccessCallAt ui ri) &&
          cfg.markOk ui ri) = true
      then mark_called cfg.markTs uid r s else s := by
  unfold stOne evsOne
  split
  · simp
  · split
    · simp [isSuccessCallAt]
    · dsimp only
      split
      · by_cases hp : cfg.provOk ui ri
        · rw [if_pos hp]
          have hany : ([Ev.parsed ui ri,
              Ev.call ui ri (num.map (normalize_e164 cfg.countryCode))
                (cfg.provOk ui ri)].any (isSuccessCallAt ui ri)) = true := by
            simp [isSuccessCallAt, hp]
          rw [hany]
          by_cases hm : cfg.markOk ui ri
          · rw [if_pos hm]
            simp [hm]
          · rw [if_neg hm]
            simp [hm]
        · have hp' : cfg.provOk ui ri = false := Bool.eq_false_iff.mpr hp
          rw [hp']
          have hany : ([Ev.parsed ui ri,
              Ev.call ui ri (num.map (normalize_e164 cfg.countryCode))
                false].any (isSuccessCallAt ui ri)) = false := by
            simp [isSuccessCallAt]
          rw [hany]
          simp
      · simp [isSuccessCallAt]

theorem calledAtAt_stOne_weak (cfg : PassCfg) (ui : Nat) (uid : String)
    (ri : Nat) (r : Reminder) (s : Store) (uj rj : Nat) :
    calledAtAt (stOne cfg ui uid ri r s) uj rj = calledAtAt s uj rj ∨
    calledAtAt (stOne cfg ui uid ri r s) uj rj = some cfg.markTs := by
  unfold stOne
  split
  · exact Or.inl rfl
  · split
    · exact Or.inl rfl
    · dsimp only
      split
      · split
        · split
          · exact calledAtAt_mark_called cfg.markTs uid r s uj rj
          · exact Or.inl rfl
        · exact Or.inl rfl
      · exact Or.inl rfl

theorem calledAtAt_stRems_weak (cfg : PassCfg) (ui : Nat) (uid : String)
    (rs : List Reminder) (ri : Nat) (s : Store) (uj rj : Nat) :
    calledAtAt (stRems cfg ui uid rs ri s) uj rj = calledAtAt s uj rj ∨
    calledAtAt (stRems cfg ui uid rs ri s) uj rj = some cfg.markTs := by
  induction rs generalizing ri s with
  | nil => exact Or.inl rfl
  | cons r rest ih =>
    unfold stRems
    rcases ih (ri + 1) (stOne cfg ui uid ri r s) with h | h
    · rw [h]
      exact calledAtAt_stOne_weak cfg ui uid ri r s uj rj
    · exact Or.inr h

theorem calledAtAt_stUsers_weak (cfg : PassCfg) (us : List User) (base : Nat)
    (s : Store) (uj rj : Nat) :
    calledAtAt (stUsers cfg us base s) uj rj = calledAtAt s uj rj ∨
    calledAtAt (stUsers cfg us base s) uj rj = some cfg.markTs := by
  induction us generalizing base s with
  | nil => exact Or.inl rfl
  | cons u rest ih =>
    unfold stUsers
    rcases ih (base + 1)
      (if candidateUser u then stRems cfg base u.userId u.reminders 0 s
       else s) with h | h
    · rw [h]
      split
      · exact calledAtAt_stRems_weak cfg base u.userId u.reminders 0 s uj rj
      · exact Or.inl rfl
    · exact Or.inr h

theorem calledAtAt_stPass_weak (cfg : PassCfg) (s : Store) (uj rj : Nat) :
    calledAtAt (stPass cfg s) uj rj = calledAtAt s uj rj ∨
    calledAtAt (stPass cfg s) uj rj = some cfg.markTs := by
  unfold stPass
  split
  · exact calledAtAt_stUsers_weak cfg s 0 s uj rj
  · exact Or.inl rfl

theorem evsPass_snapshot_none {cfg : PassCfg} {s : Store} {e : Ev}
    (h : e ∈ evsPass cfg s) :
    calledAtAt s (evIdx e).1 (evIdx e).2 = none := by
  unfold evsPass at h
  split at h
  · obtain ⟨k, u, hk, hc, hmem⟩ := evsUsers_inv h
    obtain ⟨k2, r, hk2, hmem2⟩ := evsRems_inv hmem
    obtain ⟨hca, hidx⟩ := evsOne_mem hmem2
    rw [hidx]
    unfold calledAtAt getRem
    dsimp only
    simp only [Nat.zero_add]
    rw [hk]
    dsimp only
    rw [hk2]
    dsimp only
    exact hca
  · simp at h

/-! ### Skeleton (eraseS) machinery -/

theorem getElem?_nodup_inj {α : Type} {l : List α} (h : l.Nodup) {i j : Nat}
    {a : α} (ha : l[i]? = some a) (hb : l[j]? = some a) : i = j := by
  obtain ⟨hi, hga⟩ := List.getElem?_eq_some.mp ha
  obtain ⟨hj, hgb⟩ := List.getElem?_eq_some.mp hb
  have : l[i] = l[j] := by rw [hga, hgb]
  exact (List.Nodup.getElem_inj_iff h).mp this

theorem nodup_map_ne {α β : Type} {f : α → β} {l : List α}
    (h : (l.map f).Nodup) {i j : Nat} (hij : i ≠ j) {a b : α}
    (ha : l[i]? = some a) (hb : l[j]? = some b) : f a ≠ f b := by
  intro heq
  have hfa : (l.map f)[i]? = some (f a) := by
    rw [List.getElem?_map, ha]; rfl
  have hfb : (l.map f)[j]? = some (f a) := by
    rw [List.getElem?_map, hb, heq]; rfl
  exact hij (getElem?_nodup_inj h hfa hfb)

theorem eraseU_userId {u u' : User} (h : eraseU u = eraseU u') :
    u.userId = u'.userId := by
  have h2 := congrArg User.userId h
  exact h2

theorem eraseU_phone {u u' : User} (h : eraseU u = eraseU u') :
    u.phoneNumber = u'.phoneNumber := by
  have h2 := congrArg User.phoneNumber h
  exact h2

theorem eraseU_enabled {u u' : User} (h : eraseU u = eraseU u') :
    u.phoneRemindersEnabled = u'.phoneRemindersEnabled := by
  have h2 := congrArg User.phoneRemindersEnabled h
  exact h2

theorem eraseU_rems {u u' : User} (h : eraseU u = eraseU u') :
    u.reminders.map eraseR = u'.reminders.map eraseR := by
  have h2 := congrArg User.reminders h
  exact h2

theorem eraseR_fields {r r' : Reminder} (h : eraseR r = eraseR r') :
    r.date = r'.date ∧ r.time = r'.time ∧ r.message = r'.message ∧
      r.createdAt = r'.createdAt := by
  refine ⟨?_, ?_, ?_, ?_⟩
  · have h2 := congrArg Reminder.date h
    exact h2
  · have h2 := congrArg Reminder.time h
    exact h2
  · have h2 := congrArg Reminder.message h
    exact h2
  · have h2 := congrArg Reminder.createdAt h
    exact h2

theorem map_getElem?_rel {α β : Type} {f : α → β} {l l' : List α}
    (h : l.map f = l'.map f) {i : Nat} {a : α} (ha : l[i]? = some a) :
    ∃ a', l'[i]? = some a' ∧ f a = f a' := by
  have h2 : (l'.map f)[i]? = some (f a) := by
    rw [← h, List.getElem?_map, ha]; rfl
  rw [List.getElem?_map] at h2
  cases h' : l'[i]? with
  | none => rw [h'] at h2; simp at h2
  | some a' =>
    rw [h'] at h2
    refine ⟨a', rfl, ?_⟩
    simp at h2
    exact h2.symm

theorem eraseS_rel {s s' : Store} (h : eraseS s = eraseS s') {i : Nat}
    {u : User} (hu : s[i]? = some u) :
    ∃ u', s'[i]? = some u' ∧ eraseU u = eraseU u' :=
  map_getElem?_rel (f := eraseU) h hu

theorem rems_rel {u u' : User} (h : eraseU u = eraseU u') {i : Nat}
    {r : Reminder} (hr : u.reminders[i]? = some r) :
    ∃ r', u'.reminders[i]? = some r' ∧ eraseR r = eraseR r' :=
  map_getElem?_rel (f := eraseR) (eraseU_rems h) hr

theorem eraseS_stOne (cfg : PassCfg) (ui : Nat) (uid : String) (ri : Nat)
    (r : Reminder) (s : Store) :
    eraseS (stOne cfg ui uid ri r s) = eraseS s := by
  unfold stOne
  split
  · rfl
  · split
    · rfl
    · dsimp only
      split
      · split
        · split
          · exact eraseS_mark_called cfg.markTs uid r s
          · rfl
        · rfl
      · rfl

theorem eraseS_stRems (cfg : PassCfg) (ui : Nat) (uid : String)
    (rs : List Reminder) (ri : Nat) (s : Store) :
    eraseS (stRems cfg ui uid rs ri s) = eraseS s := by
  induction rs generalizing ri s with
  | nil => rfl
  | cons r rest ih =>
    unfold stRems
    rw [ih (ri + 1) (stOne cfg ui uid ri r s), eraseS_stOne]

theorem eraseS_stUsers (cfg : PassCfg) (us : List User) (base : Nat)
    (s : Store) : eraseS (stUsers cfg us base s) = eraseS s := by
  induction us generalizing base s with
  | nil => rfl
  | cons u rest ih =>
    unfold stUsers
    rw [ih (base + 1)]
    split
    · exact eraseS_stRems cfg base u.userId u.reminders 0 s
    · rfl

theorem eraseS_stPass (cfg : PassCfg) (s : Store) :
    eraseS (stPass cfg s) = eraseS s := by
  unfold stPass
  split
  · exact eraseS_stUsers cfg s 0 s
  · rfl

theorem eraseS_loopSt (cfgs : List PassCfg) (s : Store) :
    eraseS (loopSt cfgs s) = eraseS s := by
  induction cfgs generalizing s with
  | nil => rfl
  | cons c rest ih =>
    unfold loopSt
    rw [ih]
    split
    · exact eraseS_stPass c s
    · rfl

theorem sane_of_eraseS_eq {s s' : Store} (h : eraseS s = eraseS s')
    (hS : Sane s') : Sane s := by
  constructor
  · have hmap : s.map (fun u => u.userId) = s'.map (fun u => u.userId) := by
      have h1 : (eraseS s).map (fun u => u.userId) =
          (eraseS s').map (fun u => u.userId) := by rw [h]
      unfold eraseS at h1
      rw [List.map_map, List.map_map] at h1
      have he : ((fun u : User => u.userId) ∘ eraseU) =
          (fun u : User => u.userId) := by
        funext u
        rfl
      rw [he] at h1
      exact h1
    rw [hmap]
    exact hS.1
  · intro u hu
    obtain ⟨i, hi⟩ := List.mem_iff_getElem?.mp hu
    obtain ⟨u', hu', herase⟩ := eraseS_rel h hi
    have hmem' : u' ∈ s' := List.getElem?_mem hu'
    obtain ⟨hsome, hnodup⟩ := hS.2 u' hmem'
    constructor
    · intro r hr
      obtain ⟨j, hj⟩ := List.mem_iff_getElem?.mp hr
      obtain ⟨r', hr', he⟩ := rems_rel herase hj
      rw [(eraseR_fields he).2.2.2]
      exact hsome r' (List.getElem?_mem hr')
    · have hmap : u.reminders.map (fun r => r.createdAt) =
          u'.reminders.map (fun r => r.createdAt) := by
        have h1 := eraseU_rems herase
        have h2 : (u.reminders.map eraseR).map (fun r => r.createdAt) =
            (u'.reminders.map eraseR).map (fun r => r.createdAt) := by rw [h1]
        rw [List.map_map, List.map_map] at h2
        have he : ((fun r : Reminder => r.createdAt) ∘ eraseR) =
            (fun r : Reminder => r.createdAt) := by
          funext r
          rfl
        rw [he] at h2
        exact h2
      rw [hmap]
      exact hnodup

/-! ### Exact effect of a mark write under an unambiguous store -/

theorem calledAtAt_set_self {s : Store} {ui ri : Nat} {u1 : User}
    {r1 : Reminder} (ts : Nat) (hu : s[ui]? = some u1)
    (hr : u1.reminders[ri]? = some r1) :
    calledAtAt (s.set ui
      { u1 with
        reminders := u1.reminders.set ri { r1 with calledAt := some ts } })
      ui ri = some ts := by
  have hlen : ui < s.length := (List.getElem?_eq_some.mp hu).1
  have hlen2 : ri < u1.reminders.length := (List.getElem?_eq_some.mp hr).1
  unfold calledAtAt getRem
  rw [List.getElem?_set_self hlen]
  dsimp only
  rw [List.getElem?_set_self hlen2]

theorem calledAtAt_set_other {s : Store} {ui ri : Nat} {u1 : User}
    {r1 : Reminder} (ts : Nat) (hu : s[ui]? = some u1)
    {uj rj : Nat} (hne : ¬(uj = ui ∧ rj = ri)) :
    calledAtAt (s.set ui
      { u1 with
        reminders := u1.reminders.set ri { r1 with calledAt := some ts } })
      uj rj = calledAtAt s uj rj := by
  unfold calledAtAt getRem
  by_cases hju : uj = ui
  · subst hju
    have hjr : rj ≠ ri := fun hc => hne ⟨rfl, hc⟩
    have hlen : uj < s.length := (List.getElem?_eq_some.mp hu).1
    rw [List.getElem?_set_self hlen]
    dsimp only
    rw [List.getElem?_set_ne (fun hc => hjr hc.symm), hu]
  · rw [List.getElem?_set_ne (fun hc => hju hc.symm)]

theorem mark_sets_exactly {s0 : Store} (hS : Sane s0) {ui ri : Nat} {u : User}
    {r : Reminder} (hu : s0[ui]? = some u) (hr : u.reminders[ri]? = some r)
    {s : Store} (hsk : eraseS s = eraseS s0) (ts : Nat) :
    (∀ uj rj, ¬(uj = ui ∧ rj = ri) →
      calledAtAt (mark_called ts u.userId r s) uj rj = calledAtAt s uj rj) ∧
    calledAtAt (mark_called ts u.userId r s) ui ri = some ts := by
  obtain ⟨u1, hu1, herase⟩ := eraseS_rel hsk.symm hu
  obtain ⟨r1, hr1, he1⟩ := rems_rel herase hr
  have hmem : u ∈ s0 := List.getElem?_mem hu
  have hrsome : r.createdAt.isSome = true :=
    (hS.2 u hmem).1 r (List.getElem?_mem hr)
  obtain ⟨c, hc⟩ := Option.isSome_iff_exists.mp hrsome
  have hc1 : r1.createdAt = some c := by
    rw [← (eraseR_fields he1).2.2.2]
    exact hc
  have huid : u1.userId = u.userId := (eraseU_userId herase).symm
  have heq : mark_called ts u.userId r s =
      s.set ui
        { u1 with
          reminders := u1.reminders.set ri { r1 with calledAt := some ts } } := by
    rw [← huid]
    refine mark_called_exact r ts c hu1 hr1 hc hc1 ?_ ?_
    · intro j u' hj hju'
      obtain ⟨u0', hu0', he'⟩ := eraseS_rel hsk hju'
      have hne := nodup_map_ne hS.1 hj hu0' hu
      rw [eraseU_userId he', huid]
      exact hne
    · intro k q hk hq
      obtain ⟨q0, hq0, heq0⟩ := rems_rel herase.symm hq
      have hne := nodup_map_ne (hS.2 u hmem).2 hk hq0 hr
      rw [← hc, (eraseR_fields heq0).2.2.2]
      exact hne
  rw [heq]
  exact ⟨fun uj rj hne => calledAtAt_set_other ts hu1 hne,
    calledAtAt_set_self ts hu1 hr1⟩

theorem anySuccess_false_of_ne {cfg : PassCfg} {ui : Nat} {num : Option String}
    {ri : Nat} {r : Reminder} {uj rj : Nat} (hne : ¬(uj = ui ∧ rj = ri)) :
    (evsOne cfg ui num ri r).any (isSuccessCallAt uj rj) = false := by
  rw [List.any_eq_false]
  intro e he hp
  have hidx := isCallAt_idx (isSuccessCallAt_isCallAt hp)
  rw [(evsOne_mem he).2] at hidx
  injection hidx with h1 h2
  exact hne ⟨h1.symm, h2.symm⟩

theorem stRems_master {cfg : PassCfg} {s0 : Store} (hS : Sane s0)
    {ui : Nat} {u : User} (hu : s0[ui]? = some u) (num : Option String)
    {rs : List Reminder} {ri : Nat} (hdrop : u.reminders.drop ri = rs)
    {s : Store} (hsk : eraseS s = eraseS s0) (uj rj : Nat) :
    calledAtAt (stRems cfg ui u.userId rs ri s) uj rj =
      if ((evsRems cfg ui num rs ri).any (isSuccessCallAt uj rj) &&
          cfg.markOk uj rj) = true
      then some cfg.markTs else calledAtAt s uj rj := by
  induction rs generalizing ri s with
  | nil => simp [stRems, evsRems]
  | cons r rest ih =>
    have hri : u.reminders[ri]? = some r := by
      have h0 : (u.reminders.drop ri)[0]? = some r := by
        rw [hdrop]
        exact List.getElem?_cons_zero
      rw [List.getElem?_drop] at h0
      simpa using h0
    have hdrop1 : u.reminders.drop (ri + 1) = rest := by
      rw [← List.tail_drop, hdrop]
      rfl
    unfold stRems evsRems
    rw [stOne_eq cfg ui u.userId num ri r s]
    have hs1sk : eraseS
        (if ((evsOne cfg ui num ri r).any (isSuccessCallAt ui ri) &&
            cfg.markOk ui ri) = true
         then mark_called cfg.markTs u.userId r s else s) = eraseS s0 := by
      split
      · rw [eraseS_mark_called]
        exact hsk
      · exact hsk
    rw [ih hdrop1 hs1sk]
    by_cases hT : ((evsRems cfg ui num rest (ri + 1)).any
        (isSuccessCallAt uj rj) && cfg.markOk uj rj) = true
    · rw [if_pos hT]
      have h12 := hT
      rw [Bool.and_eq_true] at h12
      obtain ⟨h1, h2⟩ := h12
      have hT2 : (((evsOne cfg ui num ri r ++
          evsRems cfg ui num rest (ri + 1)).any (isSuccessCallAt uj rj)) &&
          cfg.markOk uj rj) = true := by
        rw [List.any_append, h1, h2]
        simp
      rw [if_pos hT2]
    · rw [if_neg hT]
      have hTf : ((evsRems cfg ui num rest (ri + 1)).any
          (isSuccessCallAt uj rj) && cfg.markOk uj rj) = false := by
        cases h2 : ((evsRems cfg ui num rest (ri + 1)).any
            (isSuccessCallAt uj rj) && cfg.markOk uj rj)
        · rfl
        · exact absurd h2 hT
      by_cases hown : uj = ui ∧ rj = ri
      · obtain ⟨rfl, rfl⟩ := hown
        by_cases hb1 : ((evsOne cfg uj num rj r).any
            (isSuccessCallAt uj rj) && cfg.markOk uj rj) = true
        · rw [if_pos hb1]
          rw [(mark_sets_exactly hS hu hri hsk cfg.markTs).2]
          have hhmk := hb1
          rw [Bool.and_eq_true] at hhmk
          obtain ⟨hh, hmk⟩ := hhmk
          have hT2 : (((evsOne cfg uj num rj r ++
              evsRems cfg uj num rest (rj + 1)).any
              (isSuccessCallAt uj rj)) && cfg.markOk uj rj) = true := by
            rw [List.any_append, hh, hmk]
            simp
          rw [if_pos hT2]
        · rw [if_neg hb1]
          have hb1f : ((evsOne cfg uj num rj r).any
              (isSuccessCallAt uj rj) && cfg.markOk uj rj) = false := by
            cases h2 : ((evsOne cfg uj num rj r).any
                (isSuccessCallAt uj rj) && cfg.markOk uj rj)
            · rfl
            · exact absurd h2 hb1
          have hcomb : ¬((((evsOne cfg uj num rj r ++
              evsRems cfg uj num rest (rj + 1)).any
              (isSuccessCallAt uj rj)) && cfg.markOk uj rj) = true) := by
            rw [List.any_append]
            by_cases hmk : cfg.markOk uj rj = true
            · rw [hmk] at hb1f hTf
              simp only [Bool.and_true] at hb1f hTf
              rw [hb1f, hTf]
              simp
            · have hmkf : cfg.markOk uj rj = false := by
                cases h2 : cfg.markOk uj rj
                · rfl
                · exact absurd h2 hmk
              rw [hmkf]
              simp
          rw [if_neg hcomb]
      · have hhead : (evsOne cfg ui num ri r).any
            (isSuccessCallAt uj rj) = false := anySuccess_false_of_ne hown
        have hcomb : ¬((((evsOne cfg ui num ri r ++
            evsRems cfg ui num rest (ri + 1)).any
            (isSuccessCallAt uj rj)) && cfg.markOk uj rj) = true) := by
          rw [List.any_append, hhead]
          simp only [Bool.false_or]
          rw [hTf]
          simp
        rw [if_neg hcomb]
        split
        · exact (mark_sets_exactly hS hu hri hsk cfg.markTs).1 uj rj hown
        · rfl

theorem stUsers_master {cfg : PassCfg} {s0 : Store} (hS : Sane s0)
    {us : List User} {base : Nat} (hdrop : s0.drop base = us)
    {s : Store} (hsk : eraseS s = eraseS s0) (uj rj : Nat) :
    calledAtAt (stUsers cfg us base s) uj rj =
      if ((evsUsers cfg us base).any (isSuccessCallAt uj rj) &&
          cfg.markOk uj rj) = true
      then some cfg.markTs else calledAtAt s uj rj := by
  induction us generalizing base s with
  | nil => simp [stUsers, evsUsers]
  | cons u rest ih =>
    have hbase : s0[base]? = some u := by
      have h0 : (s0.drop base)[0]? = some u := by
        rw [hdrop]
        exact List.getElem?_cons_zero
      rw [List.getElem?_drop] at h0
      simpa using h0
    have hdrop1 : s0.drop (base + 1) = rest := by
      rw [← List.tail_drop, hdrop]
      rfl
    unfold stUsers evsUsers
    by_cases hcand : candidateUser u = true
    · rw [if_pos hcand, if_pos hcand]
      have hs1sk : eraseS (stRems cfg base u.userId u.reminders 0 s) =
          eraseS s0 := by
        rw [eraseS_stRems]
        exact hsk
      rw [ih hdrop1 hs1sk]
      by_cases hT : ((evsUsers cfg rest (base + 1)).any
          (isSuccessCallAt uj rj) && cfg.markOk uj rj) = true
      · rw [if_pos hT]
        have h12 := hT
        rw [Bool.and_eq_true] at h12
        obtain ⟨h1, h2⟩ := h12
        have hT2 : (((evsRems cfg base u.phoneNumber u.reminders 0 ++
            evsUsers cfg rest (base + 1)).any (isSuccessCallAt uj rj)) &&
            cfg.markOk uj rj) = true := by
          rw [List.any_append, h1, h2]
          simp
        rw [if_pos hT2]
      · rw [if_neg hT]
        have hTf : ((evsUsers cfg rest (base + 1)).any
            (isSuccessCallAt uj rj) && cfg.markOk uj rj) = false := by
          cases h2 : ((evsUsers cfg rest (base + 1)).any
              (isSuccessCallAt uj rj) && cfg.markOk uj rj)
          · rfl
          · exact absurd h2 hT
        rw [stRems_master hS hbase u.phoneNumber (List.drop_zero _) hsk uj rj]
        have hcond : (((evsRems cfg base u.phoneNumber u.reminders 0 ++
            evsUsers cfg rest (base + 1)).any (isSuccessCallAt uj rj)) &&
            cfg.markOk uj rj) =
            (((evsRems cfg base u.phoneNumber u.reminders 0).any
              (isSuccessCallAt uj rj)) && cfg.markOk uj rj) := by
          rw [List.any_append]
          by_cases hm : cfg.markOk uj rj = true
          · rw [hm] at hTf
            simp only [Bool.and_true] at hTf
            rw [hTf]
            simp
          · have hmf : cfg.markOk uj rj = false := by
              cases h2 : cfg.markOk uj rj
              · rfl
              · exact absurd h2 hm
            rw [hmf]
            simp
        rw [hcond]
    · have hcf : candidateUser u = false := by
        cases h2 : candidateUser u
        · rfl
        · exact absurd h2 hcand
      rw [hcf]
      simp only [Bool.false_eq_true, if_false, List.nil_append]
      exact ih hdrop1 hsk

theorem stPass_master {cfg : PassCfg} {s : Store} (hS : Sane s) (uj rj : Nat) :
    calledAtAt (stPass cfg s) uj rj =
      if ((evsPass cfg s).any (isSuccessCallAt uj rj) &&
          cfg.markOk uj rj) = true
      then some cfg.markTs else calledAtAt s uj rj := by
  unfold stPass evsPass
  split
  · exact stUsers_master hS (List.drop_zero s) rfl uj rj
  · simp

/-! ### Multi-pass lemmas -/

theorem evsPass_success_snapshot {cfg : PassCfg} {s : Store} {uj rj : Nat}
    (h : (evsPass cfg s).any (isSuccessCallAt uj rj) = true) :
    calledAtAt s uj rj = none := by
  obtain ⟨e, he, hp⟩ := List.any_eq_true.mp h
  have hidx := isCallAt_idx (isSuccessCallAt_isCallAt hp)
  have hsnap := evsPass_snapshot_none he
  rw [hidx] at hsnap
  exact hsnap

theorem evsPass_no_events_nonnull {cfg : PassCfg} {s : Store} {uj rj : Nat}
    (h : calledAtAt s uj rj ≠ none) {e : Ev} (he : e ∈ evsPass cfg s) :
    evAt uj rj e = false := by
  cases hev : evAt uj rj e
  · rfl
  · exfalso
    have hidx := evAt_idx hev
    have hsnap := evsPass_snapshot_none he
    rw [hidx] at hsnap
    exact h hsnap

theorem loop_no_events_nonnull {cfgs : List PassCfg} {s : Store} {uj rj : Nat}
    (h : calledAtAt s uj rj ≠ none) {e : Ev}
    (he : e ∈ (loopEvs cfgs s).flatten) : evAt uj rj e = false := by
  induction cfgs generalizing s with
  | nil => simp [loopEvs] at he
  | cons c rest ih =>
    unfold loopEvs at he
    rw [List.flatten_cons] at he
    rcases List.mem_append.mp he with he1 | he2
    · split at he1
      · exact evsPass_no_events_nonnull h he1
      · simp at he1
    · have h1 : calledAtAt (if c.passOk then stPass c s else s) uj rj ≠
          none := by
        split
        · rcases calledAtAt_stPass_weak c s uj rj with hw | hw <;> rw [hw]
          · exact h
          · simp
        · exact h
      exact ih h1 he2

theorem sane_stPass {cfg : PassCfg} {s : Store} (hS : Sane s) :
    Sane (stPass cfg s) :=
  sane_of_eraseS_eq (eraseS_stPass cfg s) hS

theorem sane_loop_step {c : PassCfg} {s : Store} (hS : Sane s) :
    Sane (if c.passOk then stPass c s else s) := by
  split
  · exact sane_stPass hS
  · exact hS

theorem loop_success_count {cfgs : List PassCfg} {s : Store} (hS : Sane s)
    (hM : ∀ cfg ∈ cfgs, ∀ a b, cfg.markOk a b = true) (uj rj : Nat) :
    ((loopEvs cfgs s).flatten).countP (isSuccessCallAt uj rj) ≤ 1 := by
  induction cfgs generalizing s with
  | nil => simp [loopEvs]
  | cons c rest ih =>
    unfold loopEvs
    rw [List.flatten_cons, List.countP_append]
    have hMrest : ∀ cfg ∈ rest, ∀ a b, cfg.markOk a b = true :=
      fun cfg hc => hM cfg (List.mem_cons_of_mem c hc)
    by_cases hp : c.passOk = true
    · rw [if_pos hp, if_pos hp]
      by_cases hAny : (evsPass c s).any (isSuccessCallAt uj rj) = true
      · have hmk : c.markOk uj rj = true :=
          hM c (List.mem_cons_self c rest) uj rj
        have hafter : calledAtAt (stPass c s) uj rj = some c.markTs := by
          rw [stPass_master hS uj rj]
          rw [if_pos (by rw [hAny, hmk]; simp)]
        have htail0 : ((loopEvs rest (stPass c s)).flatten).countP
            (isSuccessCallAt uj rj) = 0 := by
          apply List.countP_eq_zero.mpr
          intro e he hp2
          have hev : evAt uj rj e = true := by
            unfold evAt
            rw [isSuccessCallAt_isCallAt hp2]
            simp
          have hno := loop_no_events_nonnull
            (by rw [hafter]; simp) he
          rw [hev] at hno
          exact absurd hno (by simp)
        rw [htail0]
        have hhead := le_trans (countP_successAt_le (evsPass c s) uj rj)
          (countP_callAt_evsPass c s uj rj)
        omega
      · have hheadc : (evsPass c s).countP (isSuccessCallAt uj rj) = 0 := by
          apply List.countP_eq_zero.mpr
          intro e he hp2
          exact hAny (List.any_eq_true.mpr ⟨e, he, hp2⟩)
        rw [hheadc]
        have hAnyF : (evsPass c s).any (isSuccessCallAt uj rj) = false := by
          cases h2 : (evsPass c s).any (isSuccessCallAt uj rj)
          · rfl
          · exact absurd h2 hAny
        simpa using ih (sane_stPass hS) hMrest
    · have hpf : c.passOk = false := by
        cases h2 : c.passOk
        · rfl
        · exact absurd h2 hp
      rw [hpf]
      simp only [Bool.false_eq_true, if_false, List.countP_nil]
      simpa using ih hS hMrest

theorem loop_preserves_some {cfgs : List PassCfg} {s : Store} {uj rj : Nat}
    {t : Nat} (hS : Sane s) (hsome : calledAtAt s uj rj = some t) :
    calledAtAt (loopSt cfgs s) uj rj = some t := by
  induction cfgs generalizing s with
  | nil => exact hsome
  | cons c rest ih =>
    unfold loopSt
    have h1 : calledAtAt (if c.passOk then stPass c s else s) uj rj =
        some t := by
      split
      · rw [stPass_master hS uj rj]
        have hAnyF : (evsPass c s).any (isSuccessCallAt uj rj) = false := by
          cases hA : (evsPass c s).any (isSuccessCallAt uj rj)
          · rfl
          · exact absurd (evsPass_success_snapshot hA) (by rw [hsome]; simp)
        rw [hAnyF]
        simp only [Bool.false_and, Bool.false_eq_true, if_false]
        exact hsome
      · exact hsome
    exact ih (sane_loop_step hS) h1

theorem loop_change {cfgs : List PassCfg} {s : Store} {uj rj : Nat}
    (hS : Sane s)
    (hch : calledAtAt (loopSt cfgs s) uj rj ≠ calledAtAt s uj rj) :
    calledAtAt s uj rj = none ∧
    ∃ e ∈ (loopEvs cfgs s).flatten, isSuccessCallAt uj rj e = true := by
  induction cfgs generalizing s with
  | nil => exact absurd rfl hch
  | cons c rest ih =>
    unfold loopSt at hch
    unfold loopEvs
    rw [List.flatten_cons]
    by_cases hp : c.passOk = true
    · rw [if_pos hp] at hch
      rw [if_pos hp, if_pos hp]
      by_cases hAny : (evsPass c s).any (isSuccessCallAt uj rj) = true
      · refine ⟨evsPass_success_snapshot hAny, ?_⟩
        obtain ⟨e, he, hp2⟩ := List.any_eq_true.mp hAny
        exact ⟨e, List.mem_append.mpr (Or.inl he), hp2⟩
      · have hAnyF : (evsPass c s).any (isSuccessCallAt uj rj) = false := by
          cases h2 : (evsPass c s).any (isSuccessCallAt uj rj)
          · rfl
          · exact absurd h2 hAny
        have hunch : calledAtAt (stPass c s) uj rj = calledAtAt s uj rj := by
          rw [stPass_master hS uj rj, hAnyF]
          simp
        have hch2 : calledAtAt (loopSt rest (stPass c s)) uj rj ≠
            calledAtAt (stPass c s) uj rj := by
          rw [hunch]
          exact hch
        obtain ⟨hn, e, he, hp2⟩ := ih (sane_stPass hS) hch2
        rw [hunch] at hn
        exact ⟨hn, e, List.mem_append.mpr (Or.inr he), hp2⟩
    · have hpf : c.passOk = false := by
        cases h2 : c.passOk
        · rfl
        · exact absurd h2 hp
      rw [hpf] at hch
      rw [hpf]
      simp only [Bool.false_eq_true, if_false] at hch ⊢
      obtain ⟨hn, e, he, hp2⟩ := ih hS hch
      exact ⟨hn, e, List.mem_append.mpr (Or.inr he), hp2⟩

/-! ### Pass-level event lemmas and configuration congruence -/

theorem calledAtAt_of {s : Store} {ui ri : Nat} {u : User} {r : Reminder}
    (hu : s[ui]? = some u) (hr : u.reminders[ri]? = some r) :
    calledAtAt s ui ri = r.calledAt := by
  unfold calledAtAt getRem
  rw [hu]
  dsimp only
  rw [hr]

theorem evsPass_call_fwd {cfg : PassCfg} {s : Store} {ui ri : Nat} {u : User}
    {r : Reminder} {dt : PyDateTime}
    (hflags : cfg.dbConfigured = true ∧ cfg.twilioConfigured = true)
    (hu : s[ui]? = some u) (hc : candidateUser u = true)
    (hr : u.reminders[ri]? = some r) (hca : r.calledAt = none)
    (hp : try_parse_datetime r.date r.time = some dt)
    (hlo : 0 ≤ (toSec cfg.now : Int) - (toSec dt : Int))
    (hhi : (toSec cfg.now : Int) - (toSec dt : Int) ≤ (cfg.windowSeconds : Int)) :
    Ev.call ui ri (u.phoneNumber.map (normalize_e164 cfg.countryCode))
      (cfg.provOk ui ri) ∈ evsPass cfg s := by
  unfold evsPass
  rw [if_pos hflags]
  refine evsUsers_fwd hu hc ?_
  rw [Nat.zero_add]
  refine evsRems_fwd hr ?_
  rw [Nat.zero_add]
  exact evsOne_call_fwd hca hp hlo hhi

theorem evsPass_parsed_fwd {cfg : PassCfg} {s : Store} {ui ri : Nat}
    {u : User} {r : Reminder}
    (hflags : cfg.dbConfigured = true ∧ cfg.twilioConfigured = true)
    (hu : s[ui]? = some u) (hc : candidateUser u = true)
    (hr : u.reminders[ri]? = some r) (hca : r.calledAt = none) :
    Ev.parsed ui ri ∈ evsPass cfg s := by
  unfold evsPass
  rw [if_pos hflags]
  refine evsUsers_fwd hu hc ?_
  rw [Nat.zero_add]
  refine evsRems_fwd hr ?_
  rw [Nat.zero_add]
  exact evsOne_parsed_fwd hca

theorem evsPass_call_inv {cfg : PassCfg} {s : Store} {a b : Nat}
    {n : Option String} {ok : Bool} (h : Ev.call a b n ok ∈ evsPass cfg s) :
    ∃ u r dt, s[a]? = some u ∧ candidateUser u = true ∧
      u.reminders[b]? = some r ∧ r.calledAt = none ∧
      n = u.phoneNumber.map (normalize_e164 cfg.countryCode) ∧
      ok = cfg.provOk a b ∧
      try_parse_datetime r.date r.time = some dt ∧
      0 ≤ (toSec cfg.now : Int) - (toSec dt : Int) ∧
      (toSec cfg.now : Int) - (toSec dt : Int) ≤ (cfg.windowSeconds : Int) := by
  unfold evsPass at h
  split at h
  · obtain ⟨k, u, hk, hc, hmem⟩ := evsUsers_inv h
    obtain ⟨k2, r, hk2, hmem2⟩ := evsRems_inv hmem
    obtain ⟨h1, h2, hca, hn, hok, dt, hdt, hlo, hhi⟩ := evsOne_call_inv hmem2
    have ha : a = k := by omega
    have hb : b = k2 := by omega
    subst ha
    subst hb
    refine ⟨u, r, dt, hk, hc, ?_, hca, hn, ?_, hdt, hlo, hhi⟩
    · exact hk2
    · rw [hok, Nat.zero_add, Nat.zero_add]
  · simp at h

theorem evAt_of_idx {uj rj : Nat} {e : Ev} (h : evIdx e = (uj, rj)) :
    evAt uj rj e = true := by
  cases e with
  | parsed a b =>
    unfold evIdx at h
    injection h with h1 h2
    simp [evAt, isParseAt, isCallAt, h1, h2]
  | call a b n ok =>
    unfold evIdx at h
    injection h with h1 h2
    simp [evAt, isCallAt, h1, h2]

theorem evsOne_cfg_congr {cfg cfg' : PassCfg} (hn : cfg.now = cfg'.now)
    (hw : cfg.windowSeconds = cfg'.windowSeconds)
    (hcc : cfg.countryCode = cfg'.countryCode) {ui ri : Nat}
    (hp : cfg.provOk ui ri = cfg'.provOk ui ri)
    (num : Option String) (r : Reminder) :
    evsOne cfg ui num ri r = evsOne cfg' ui num ri r := by
  unfold evsOne
  rw [hn, hw, hcc, hp]

theorem evsRems_cfg_congr {cfg cfg' : PassCfg} (hn : cfg.now = cfg'.now)
    (hw : cfg.windowSeconds = cfg'.windowSeconds)
    (hcc : cfg.countryCode = cfg'.countryCode)
    (hp : ∀ a b, cfg.provOk a b = cfg'.provOk a b)
    (ui : Nat) (num : Option String) (rs : List Reminder) (ri : Nat) :
    evsRems cfg ui num rs ri = evsRems cfg' ui num rs ri := by
  induction rs generalizing ri with
  | nil => rfl
  | cons r rest ih =>
    unfold evsRems
    rw [evsOne_cfg_congr hn hw hcc (hp ui ri) num r, ih (ri + 1)]

theorem evsUsers_cfg_congr {cfg cfg' : PassCfg} (hn : cfg.now = cfg'.now)
    (hw : cfg.windowSeconds = cfg'.windowSeconds)
    (hcc : cfg.countryCode = cfg'.countryCode)
    (hp : ∀ a b, cfg.provOk a b = cfg'.provOk a b)
    (us : List User) (base : Nat) :
    evsUsers cfg us base = evsUsers cfg' us base := by
  induction us generalizing base with
  | nil => rfl
  | cons u rest ih =>
    unfold evsUsers
    rw [evsRems_cfg_congr hn hw hcc hp base u.phoneNumber u.reminders 0,
      ih (base + 1)]

theorem evsPass_cfg_congr {cfg cfg' : PassCfg}
    (hdb : cfg.dbConfigured = cfg'.dbConfigured)
    (htw : cfg.twilioConfigured = cfg'.twilioConfigured)
    (hn : cfg.now = cfg'.now)
    (hw : cfg.windowSeconds = cfg'.windowSeconds)
    (hcc : cfg.countryCode = cfg'.countryCode)
    (hp : ∀ a b, cfg.provOk a b = cfg'.provOk a b) (s : Store) :
    evsPass cfg s = evsPass cfg' s := by
  unfold evsPass
  rw [hdb, htw]
  split
  · exact evsUsers_cfg_congr hn hw hcc hp s 0
  · rfl

theorem filter_evAt_evsOne {cfg : PassCfg} {ui : Nat} {num : Option String}
    {ri : Nat} {r : Reminder} (uj rj : Nat) :
    (evsOne cfg ui num ri r).filter (evAt uj rj) =
      if uj = ui ∧ rj = ri then evsOne cfg ui num ri r else [] := by
  by_cases hj : uj = ui ∧ rj = ri
  · rw [if_pos hj]
    rw [List.filter_eq_self]
    intro e he
    refine evAt_of_idx ?_
    rw [(evsOne_mem he).2, hj.1, hj.2]
  · rw [if_neg hj]
    rw [List.filter_eq_nil_iff]
    intro e he
    intro hc
    have hidx := evAt_idx hc
    rw [(evsOne_mem he).2] at hidx
    injection hidx with h1 h2
    exact hj ⟨h1.symm, h2.symm⟩

theorem filter_evsRems_congr {cfg cfg' : PassCfg} (hn : cfg.now = cfg'.now)
    (hw : cfg.windowSeconds = cfg'.windowSeconds)
    (hcc : cfg.countryCode = cfg'.countryCode) {uj rj : Nat}
    (hp1 : cfg.provOk uj rj = cfg'.provOk uj rj)
    (ui : Nat) (num : Option String) (rs : List Reminder) (ri : Nat) :
    (evsRems cfg ui num rs ri).filter (evAt uj rj) =
      (evsRems cfg' ui num rs ri).filter (evAt uj rj) := by
  induction rs generalizing ri with
  | nil => rfl
  | cons r rest ih =>
    unfold evsRems
    rw [List.filter_append, List.filter_append]
    rw [filter_evAt_evsOne uj rj, filter_evAt_evsOne uj rj, ih (ri + 1)]
    by_cases hj : uj = ui ∧ rj = ri
    · rw [if_pos hj, if_pos hj]
      obtain ⟨rfl, rfl⟩ := hj
      rw [evsOne_cfg_congr hn hw hcc hp1 num r]
    · rw [if_neg hj, if_neg hj]

theorem filter_evsUsers_congr {cfg cfg' : PassCfg} (hn : cfg.now = cfg'.now)
    (hw : cfg.windowSeconds = cfg'.windowSeconds)
    (hcc : cfg.countryCode = cfg'.countryCode) {uj rj : Nat}
    (hp1 : cfg.provOk uj rj = cfg'.provOk uj rj)
    (us : List User) (base : Nat) :
    (evsUsers cfg us base).filter (evAt uj rj) =
      (evsUsers cfg' us base).filter (evAt uj rj) := by
  induction us generalizing base with
  | nil => rfl
  | cons u rest ih =>
    unfold evsUsers
    rw [List.filter_append, List.filter_append, ih (base + 1)]
    split
    · rw [filter_evsRems_congr hn hw hcc hp1 base u.phoneNumber u.reminders 0]
    · rfl

theorem filter_evsPass_congr {cfg cfg' : PassCfg}
    (hdb : cfg.dbConfigured = cfg'.dbConfigured)
    (htw : cfg.twilioConfigured = cfg'.twilioConfigured)
    (hn : cfg.now = cfg'.now)
    (hw : cfg.windowSeconds = cfg'.windowSeconds)
    (hcc : cfg.countryCode = cfg'.countryCode) {uj rj : Nat}
    (hp1 : cfg.provOk uj rj = cfg'.provOk uj rj) (s : Store) :
    (evsPass cfg s).filter (evAt uj rj) =
      (evsPass cfg' s).filter (evAt uj rj) := by
  unfold evsPass
  rw [hdb, htw]
  split
  · exact filter_evsUsers_congr hn hw hcc hp1 s 0
  · rfl

/-! ### Helper lemmas for the mark-matching characterization -/

theorem remMatch_iff {r q : Reminder} :
    remMatch r q = true ↔ specRemMatch r q := by
  unfold remMatch specRemMatch
  cases r.createdAt with
  | none =>
    unfold tupleMatch
    simp only [Bool.and_eq_true, beq_iff_eq]
    constructor
    · rintro ⟨⟨⟨h1, h2⟩, h3⟩, h4⟩
      exact ⟨h1, h2, h3, by simpa using h4⟩
    · rintro ⟨h1, h2, h3, h4⟩
      exact ⟨⟨⟨h1, h2⟩, h3⟩, by simp [h4]⟩
  | some c => simp

theorem candidateUser_congr {u u' : User} (h : eraseU u = eraseU u') :
    candidateUser u = candidateUser u' := by
  unfold candidateUser
  rw [eraseU_enabled h, eraseU_phone h]

theorem getRem_set_ne_user {s : Store} {i : Nat} {u' : User} {ui ri : Nat}
    (hne : ui ≠ i) : getRem (s.set i u') ui ri = getRem s ui ri := by
  unfold getRem
  rw [List.getElem?_set_ne (fun hc => hne hc.symm)]

theorem getRem_set_user {s : Store} {i : Nat} {u' : User} (ri : Nat)
    (hlen : i < s.length) : getRem (s.set i u') i ri = u'.reminders[ri]? := by
  unfold getRem
  rw [List.getElem?_set_self hlen]

/-! ### Claim theorems -/

/-- C1, counterexample: the claim "the provider is invoked at most once per
Reminder, including passes where the provider call succeeds but the
subsequent mark-called store write fails" is false on the code.  With one
user owning one due reminder, a first pass whose provider call succeeds but
whose mark write raises, followed by a second healthy pass, produces two
successful provider invocations for the same reminder. -/
theorem c1_counterexample :
    ((scheduler_loop [mkCfgA true false, mkCfgA true true] stA).2.flatten.countP
      (isSuccessCallAt 0 0)) = 2 := by decide

/-- C1, amended: over any sequence of scan passes in which every mark-called
write after a successful dispatch succeeds, and on a store whose user
identifiers are distinct and whose reminders all carry distinct creation
identifiers, the provider successfully dispatches each reminder at most
once; `calledAt` is never cleared or changed once set, and it changes only
from null, and only when a successful dispatch event occurred. -/
theorem c1_amended_idempotent_dispatch (cfgs : List PassCfg) (s : Store)
    (uj rj : Nat) (hS : Sane s)
    (hM : ∀ cfg ∈ cfgs, ∀ a b, cfg.markOk a b = true) :
    ((scheduler_loop cfgs s).2.flatten.countP (isSuccessCallAt uj rj) ≤ 1) ∧
    (∀ t, calledAtAt s uj rj = some t →
      calledAtAt (scheduler_loop cfgs s).1 uj rj = some t) ∧
    (calledAtAt (scheduler_loop cfgs s).1 uj rj ≠ calledAtAt s uj rj →
      calledAtAt s uj rj = none ∧
      ∃ e ∈ (scheduler_loop cfgs s).2.flatten,
        isSuccessCallAt uj rj e = true) := by
  rw [scheduler_loop_eq]
  exact ⟨loop_success_count hS hM uj rj,
    fun t ht => loop_preserves_some hS ht,
    fun hch => loop_change hS hch⟩

/-- C1, witness: the amended theorem applied to a concrete healthy run. -/
theorem c1_witness :
    ((scheduler_loop [mkCfgA true true] stA).2.flatten.countP
      (isSuccessCallAt 0 0) ≤ 1) :=
  (c1_amended_idempotent_dispatch [mkCfgA true true] stA 0 0 (by decide)
    (by
      intro cfg hc a b
      simp only [List.mem_singleton] at hc
      subst hc
      rfl)).1

/-- C2: a reminder whose `calledAt` is non-null at the start of a run is
never the subject of a provider invocation or of a parse attempt, in that
pass or in any subsequent pass, however many passes run. -/
theorem c2_called_never_reexamined (cfgs : List PassCfg) (s : Store)
    (ui ri : Nat) (h : calledAtAt s ui ri ≠ none) :
    ((scheduler_loop cfgs s).2.flatten.countP (evAt ui ri)) = 0 := by
  rw [scheduler_loop_eq]
  apply List.countP_eq_zero.mpr
  intro e he hc
  have := loop_no_events_nonnull h he
  rw [hc] at this
  exact absurd this (by simp)

/-- C2, witness: the theorem applied to a store whose reminder is already
called. -/
theorem c2_witness :
    ((scheduler_loop [mkCfgA true true] stCalled).2.flatten.countP
      (evAt 0 0)) = 0 :=
  c2_called_never_reexamined [mkCfgA true true] stCalled 0 0 (by decide)

/-- C5: the code contradicts the claim.  The candidate query as the code
evaluates it (the duplicate `"$ne"` dict key leaves only `!= ""`) returns a
user whose `phoneNumber` is absent, and the dispatcher then invokes the
provider with a null destination number instead of rejecting. -/
theorem c5_missing_phone_still_called :
    candidateUser usrNoPhone = true ∧
    (process_due_once (mkCfgA true true) [usrNoPhone]).2 =
      [Ev.parsed 0 0, Ev.call 0 0 none true] := by decide

/-- C6: the parse strategy.  The code's attempt order (iso on `date time`,
fallback on `date time`, iso on `date"T"time`, fallback on `date"T"time`)
is extensionally the order the specification states (the two combined forms,
then the `DD/MM/YYYY HH:MM` fallback, first success wins); a missing or
empty date or time yields unparseable; the three specification examples
parse as stated, and the unparseable reminder is skipped by the pass. -/
theorem c6_parse_strategy :
    (∀ d t : Option String, try_parse_datetime d t = specOrderParse d t) ∧
    (∀ t, try_parse_datetime none t = none) ∧
    (∀ d, try_parse_datetime d none = none) ∧
    (∀ t, try_parse_datetime (some "") t = none) ∧
    (∀ d, try_parse_datetime d (some "") = none) ∧
    try_parse_datetime (some "2024-05-01") (some "09:30") =
      some ⟨2024, 5, 1, 9, 30, 0⟩ ∧
    (fromiso ("01/05/2024 09:30".data) = none ∧
     strpDMY ("01/05/2024 09:30".data) = some ⟨2024, 5, 1, 9, 30, 0⟩ ∧
     try_parse_datetime (some "01/05/2024") (some "09:30") =
       some ⟨2024, 5, 1, 9, 30, 0⟩) ∧
    try_parse_datetime (some "not-a-date") (some "09:30") = none ∧
    (process_due_once (cfgAt ⟨2024, 5, 1, 9, 45, 0⟩)
      (st1 "not-a-date" "09:30")).2 = [Ev.parsed 0 0] := by
  refine ⟨tryparse_eq_specOrder, ?_, ?_, ?_, ?_, by decide, by decide,
    by decide, by decide⟩
  · intro t
    cases t <;> rfl
  · intro d
    cases d <;> rfl
  · intro t
    cases t with
    | none => rfl
    | some t => simp [try_parse_datetime]
  · intro d
    cases d with
    | none => rfl
    | some d => simp [try_parse_datetime]

/-- C7: phone normalization agrees with the specification's description
(trim; strip spaces, hyphens, parentheses; keep a leading-`'+'` result
unchanged; otherwise prepend the default country code), empty input is
returned unchanged, and the two specification examples normalize as
stated. -/
theorem c7_normalization :
    (∀ cc s : String, normalize_e164 cc s = specNormalize cc s) ∧
    (∀ cc : String, normalize_e164 cc "" = "") ∧
    normalize_e164 "+91" "98765 43210" = "+919876543210" ∧
    normalize_e164 "+91" "+1 555-123-4567" = "+15551234567" :=
  ⟨normalize_eq_specNormalize, fun _ => rfl, by decide, by decide⟩

/-- C10, counterexample: `normalize_e164` with the default country code is
not idempotent on every input.  For `"9\t)"` the stripped parenthesis
exposes a trailing tab, so the first normalization returns `"+919\t"` and
the second strips the tab, returning `"+919"`. -/
theorem c10_counterexample :
    ¬ (normalize_e164 "+91" (normalize_e164 "+91" "9\t)") =
       normalize_e164 "+91" "9\t)") := by decide

/-- C10, amended: normalization is idempotent whenever the default country
code begins with `'+'` and contains no whitespace, hyphen, or parenthesis
(true of the default `"+91"`), and the input's whitespace characters are
all plain spaces.  The unrestricted claim fails when a stripped separator
exposes a trailing non-space whitespace character (see the
counterexample). -/
theorem c10_amended_idempotent (cc s : String)
    (hplus : cc.data.head? = some '+')
    (hccClean : ∀ c ∈ cc.data, isWsChar c = false ∧ c ≠ '-' ∧ c ≠ '(' ∧
      c ≠ ')')
    (hsWs : ∀ c ∈ s.data, isWsChar c = true → c = ' ') :
    normalize_e164 cc (normalize_e164 cc s) = normalize_e164 cc s := by
  by_cases hs : s = ""
  · subst hs
    rfl
  · have hclean : ∀ c ∈ removeSeps (pyStrip s.data),
        isWsChar c = false ∧ c ≠ ' ' ∧ c ≠ '-' ∧ c ≠ '(' ∧ c ≠ ')' := by
      intro c hc
      obtain ⟨hmem, h1, h2, h3, h4⟩ := mem_removeSeps hc
      have hmem2 := mem_of_mem_pyStrip hmem
      have hws : isWsChar c = false := by
        cases hw : isWsChar c
        · rfl
        · exact absurd (hsWs c hmem2 hw) h1
      exact ⟨hws, h1, h2, h3, h4⟩
    rcases normalize_cases cc s hs with ⟨rest, hn, hres⟩ | ⟨hnp, hres⟩
    · rw [hres]
      refine normalize_clean_plus cc _ ?_ hclean
      rw [hn]
      rfl
    · rw [hres]
      refine normalize_clean_plus cc _ ?_ ?_
      · cases hcc : cc.data with
        | nil =>
          rw [hcc] at hplus
          simp at hplus
        | cons c0 ccr =>
          rw [hcc] at hplus
          simp only [List.head?_cons, Option.some.injEq] at hplus
          simp [hplus]
      · intro c hc
        rcases List.mem_append.mp hc with hc1 | hc2
        · obtain ⟨hw, h2, h3, h4⟩ := hccClean c hc1
          refine ⟨hw, ?_, h2, h3, h4⟩
          intro hsp
          rw [hsp] at hw
          exact absurd hw (by decide)
        · exact hclean c hc2

/-- C10, witness: the amended theorem applied to a concrete input. -/
theorem c10_witness :
    normalize_e164 "+91" (normalize_e164 "+91" "98765 43210") =
      normalize_e164 "+91" "98765 43210" :=
  c10_amended_idempotent "+91" "98765 43210" (by decide) (by decide)
    (by decide)

/-- C3: for a candidate reminder with a resolved scheduled instant, the pass
invokes the provider for it exactly when `diff = now - scheduledInstant`
satisfies `0 ≤ diff ≤ windowSeconds`; and with `now = 2024-05-01 09:45:00`
and the default window 900, a reminder scheduled one second earlier is due,
one scheduled 901 seconds earlier is not, and one scheduled one second in
the future is not. -/
theorem c3_due_window :
    (∀ (cfg : PassCfg) (s : Store) (ui ri : Nat) (u : User) (r : Reminder)
      (dt : PyDateTime),
      cfg.dbConfigured = true → cfg.twilioConfigured = true →
      s[ui]? = some u → candidateUser u = true →
      u.reminders[ri]? = some r → r.calledAt = none →
      try_parse_datetime r.date r.time = some dt →
      ((∃ n ok, Ev.call ui ri n ok ∈ (process_due_once cfg s).2) ↔
        (0 ≤ (toSec cfg.now : Int) - (toSec dt : Int) ∧
         (toSec cfg.now : Int) - (toSec dt : Int) ≤
           (cfg.windowSeconds : Int)))) ∧
    ((process_due_once (cfgAt ⟨2024, 5, 1, 9, 45, 0⟩)
      (st1 "2024-05-01" "09:44:59")).2.any (isCallAt 0 0) = true) ∧
    ((process_due_once (cfgAt ⟨2024, 5, 1, 9, 45, 0⟩)
      (st1 "2024-05-01" "09:29:59")).2.any (isCallAt 0 0) = false) ∧
    ((process_due_once (cfgAt ⟨2024, 5, 1, 9, 45, 0⟩)
      (st1 "2024-05-01" "09:45:01")).2.any (isCallAt 0 0) = false) := by
  refine ⟨?_, by decide, by decide, by decide⟩
  intro cfg s ui ri u r dt hdb htw hu hcand hr hca hp
  rw [process_due_once_eq]
  constructor
  · rintro ⟨n, ok, hmem⟩
    obtain ⟨u', r', dt', hu', hc', hr', hca', hn', hok', hdt', hlo', hhi'⟩ :=
      evsPass_call_inv hmem
    rw [hu] at hu'
    injection hu' with hu'
    subst hu'
    rw [hr] at hr'
    injection hr' with hr'
    subst hr'
    rw [hp] at hdt'
    injection hdt' with hdt'
    subst hdt'
    exact ⟨hlo', hhi'⟩
  · rintro ⟨hlo, hhi⟩
    exact ⟨u.phoneNumber.map (normalize_e164 cfg.countryCode),
      cfg.provOk ui ri,
      evsPass_call_fwd ⟨hdb, htw⟩ hu hcand hr hca hp hlo hhi⟩

/-- C3, witness: the window rule applied at the boundary instance. -/
theorem c3_witness :
    ∃ n ok, Ev.call 0 0 n ok ∈ (process_due_once
      (cfgAt ⟨2024, 5, 1, 9, 45, 0⟩) (st1 "2024-05-01" "09:44:59")).2 :=
  (c3_due_window.1 (cfgAt ⟨2024, 5, 1, 9, 45, 0⟩)
    (st1 "2024-05-01" "09:44:59") 0 0
    ⟨"u1", some "98765 43210", true,
      [⟨some "2024-05-01", some "09:44:59", some "hi", some 1, none⟩]⟩
    ⟨some "2024-05-01", some "09:44:59", some "hi", some 1, none⟩
    ⟨2024, 5, 1, 9, 44, 59⟩ rfl rfl (by decide) (by decide) (by decide)
    (by decide) (by decide)).mpr (by decide)

/-- C8: failure isolation.  (a) the pass's events do not depend on the
mark-write outcomes at all, so a failed mark for one reminder cannot stop
any other reminder from being examined; (b) the events concerning one
position depend only on the provider outcome at that same position, so a
provider failure for one reminder leaves every other reminder's events
unchanged; (c) a pass whose store read raises changes nothing and the
periodic loop continues with the remaining passes unchanged. -/
theorem c8_failure_isolation :
    (∀ (cfg : PassCfg) (M : Nat → Nat → Bool) (s : Store),
      (process_due_once { cfg with markOk := M } s).2 =
        (process_due_once cfg s).2) ∧
    (∀ (cfg : PassCfg) (P : Nat → Nat → Bool) (s : Store) (ui ri : Nat),
      P ui ri = cfg.provOk ui ri →
      ((process_due_once { cfg with provOk := P } s).2.filter (evAt ui ri)) =
        ((process_due_once cfg s).2.filter (evAt ui ri))) ∧
    (∀ (c : PassCfg) (cfgs : List PassCfg) (s : Store), c.passOk = false →
      scheduler_loop (c :: cfgs) s =
        ((scheduler_loop cfgs s).1, [] :: (scheduler_loop cfgs s).2)) := by
  refine ⟨?_, ?_, ?_⟩
  · intro cfg M s
    rw [process_due_once_eq, process_due_once_eq]
    show evsPass { cfg with markOk := M } s = evsPass cfg s
    exact @evsPass_cfg_congr { cfg with markOk := M } cfg
      rfl rfl rfl rfl rfl (fun a b => rfl) s
  · intro cfg P s ui ri hP
    rw [process_due_once_eq, process_due_once_eq]
    show (evsPass { cfg with provOk := P } s).filter (evAt ui ri) =
      (evsPass cfg s).filter (evAt ui ri)
    exact @filter_evsPass_congr { cfg with provOk := P } cfg
      rfl rfl rfl rfl rfl ui ri hP s
  · intro c cfgs s h
    rw [scheduler_loop_eq, scheduler_loop_eq]
    have h1 : loopSt (c :: cfgs) s =
        loopSt cfgs (if c.passOk = true then stPass c s else s) := rfl
    have h2 : loopEvs (c :: cfgs) s =
        (if c.passOk = true then evsPass c s else []) ::
          loopEvs cfgs (if c.passOk = true then stPass c s else s) := rfl
    rw [h1, h2, h]
    simp

/-- C8, witness: a pass-level failure changes nothing and the loop
continues. -/
theorem c8_witness :
    scheduler_loop [cfgFailedPass] stA =
      ((scheduler_loop [] stA).1, [] :: (scheduler_loop [] stA).2) :=
  c8_failure_isolation.2.2 cfgFailedPass [] stA rfl

/-- C4: retry on dispatch failure.  If the provider errors on a due
candidate reminder in one pass, that pass still records the attempted
(failed) invocation, leaves the reminder's `calledAt` null, and still
examines every other live candidate reminder; a later pass in which the
provider and the mark write are healthy and the reminder is still within
the window dispatches it successfully and sets `calledAt`, and across the
two passes exactly one successful dispatch occurs. -/
theorem c4_retry_on_failure (cfg1 cfg2 : PassCfg) (s : Store) (ui ri : Nat)
    (u : User) (r : Reminder) (dt : PyDateTime) (hS : Sane s)
    (hdb1 : cfg1.dbConfigured = true) (htw1 : cfg1.twilioConfigured = true)
    (hu : s[ui]? = some u) (hcand : candidateUser u = true)
    (hr : u.reminders[ri]? = some r) (hca : r.calledAt = none)
    (hp : try_parse_datetime r.date r.time = some dt)
    (hlo1 : 0 ≤ (toSec cfg1.now : Int) - (toSec dt : Int))
    (hhi1 : (toSec cfg1.now : Int) - (toSec dt : Int) ≤
      (cfg1.windowSeconds : Int))
    (hfail : cfg1.provOk ui ri = false)
    (hdb2 : cfg2.dbConfigured = true) (htw2 : cfg2.twilioConfigured = true)
    (hok2 : cfg2.provOk ui ri = true) (hmk2 : cfg2.markOk ui ri = true)
    (hlo2 : 0 ≤ (toSec cfg2.now : Int) - (toSec dt : Int))
    (hhi2 : (toSec cfg2.now : Int) - (toSec dt : Int) ≤
      (cfg2.windowSeconds : Int)) :
    Ev.call ui ri (u.phoneNumber.map (normalize_e164 cfg1.countryCode)) false
        ∈ (process_due_once cfg1 s).2 ∧
    calledAtAt (process_due_once cfg1 s).1 ui ri = none ∧
    (∀ uj rj u' r', s[uj]? = some u' → candidateUser u' = true →
      u'.reminders[rj]? = some r' → r'.calledAt = none →
      Ev.parsed uj rj ∈ (process_due_once cfg1 s).2) ∧
    (∃ n, Ev.call ui ri n true ∈
      (process_due_once cfg2 (process_due_once cfg1 s).1).2) ∧
    calledAtAt (process_due_once cfg2 (process_due_once cfg1 s).1).1 ui ri =
      some cfg2.markTs ∧
    ((process_due_once cfg1 s).2 ++
      (process_due_once cfg2 (process_due_once cfg1 s).1).2).countP
      (isSuccessCallAt ui ri) = 1 := by
  rw [process_due_once_eq cfg1 s]
  have hAnyF : (evsPass cfg1 s).any (isSuccessCallAt ui ri) = false := by
    cases hA : (evsPass cfg1 s).any (isSuccessCallAt ui ri)
    · rfl
    · exfalso
      obtain ⟨e, he, hp2⟩ := List.any_eq_true.mp hA
      obtain ⟨n, rfl⟩ := isSuccessCallAt_inv hp2
      obtain ⟨u', r', dt', _, _, _, _, _, hok', _, _, _⟩ :=
        evsPass_call_inv he
      rw [hfail] at hok'
      exact absurd hok'.symm (by simp)
  have hs1 : calledAtAt (stPass cfg1 s) ui ri = none := by
    rw [stPass_master hS ui ri, hAnyF]
    simp only [Bool.false_and, Bool.false_eq_true, if_false]
    rw [calledAtAt_of hu hr]
    exact hca
  have hsk1 : eraseS (stPass cfg1 s) = eraseS s := eraseS_stPass cfg1 s
  obtain ⟨u1, hu1, herase⟩ := eraseS_rel hsk1.symm hu
  obtain ⟨r1, hr1, he1⟩ := rems_rel herase hr
  have hca1 : r1.calledAt = none := by
    rw [calledAtAt_of hu1 hr1] at hs1
    exact hs1
  have hcand1 : candidateUser u1 = true := by
    rw [← candidateUser_congr herase]
    exact hcand
  have hp1 : try_parse_datetime r1.date r1.time = some dt := by
    rw [← (eraseR_fields he1).1, ← (eraseR_fields he1).2.1]
    exact hp
  have hcall2 : Ev.call ui ri
      (u1.phoneNumber.map (normalize_e164 cfg2.countryCode)) true ∈
      evsPass cfg2 (stPass cfg1 s) := by
    have h9 : Ev.call ui ri
        (u1.phoneNumber.map (normalize_e164 cfg2.countryCode))
        (cfg2.provOk ui ri) ∈ evsPass cfg2 (stPass cfg1 s) :=
      evsPass_call_fwd ⟨hdb2, htw2⟩ hu1 hcand1 hr1 hca1 hp1 hlo2 hhi2
    rw [hok2] at h9
    exact h9
  have hcount1 : (evsPass cfg1 s).countP (isSuccessCallAt ui ri) = 0 := by
    apply List.countP_eq_zero.mpr
    intro e he hp2
    rw [List.any_eq_false] at hAnyF
    exact hAnyF e he hp2
  refine ⟨?_, hs1, ?_, ?_, ?_, ?_⟩
  · have h9 : Ev.call ui ri
        (u.phoneNumber.map (normalize_e164 cfg1.countryCode))
        (cfg1.provOk ui ri) ∈ evsPass cfg1 s :=
      evsPass_call_fwd ⟨hdb1, htw1⟩ hu hcand hr hca hp hlo1 hhi1
    rw [hfail] at h9
    exact h9
  · intro uj rj u' r' hu' hc' hr' hca'
    exact evsPass_parsed_fwd ⟨hdb1, htw1⟩ hu' hc' hr' hca'
  · rw [process_due_once_eq]
    exact ⟨u1.phoneNumber.map (normalize_e164 cfg2.countryCode), hcall2⟩
  · rw [process_due_once_eq]
    have hSane1 : Sane (stPass cfg1 s) := sane_stPass hS
    rw [stPass_master hSane1 ui ri]
    have hAny2 : (evsPass cfg2 (stPass cfg1 s)).any
        (isSuccessCallAt ui ri) = true :=
      List.any_eq_true.mpr ⟨_, hcall2, by simp [isSuccessCallAt]⟩
    rw [if_pos (by rw [hAny2, hmk2]; simp)]
  · rw [process_due_once_eq]
    dsimp only
    rw [List.countP_append, hcount1]
    have hle := le_trans
      (countP_successAt_le (evsPass cfg2 (stPass cfg1 s)) ui ri)
      (countP_callAt_evsPass cfg2 (stPass cfg1 s) ui ri)
    have hge : 0 < (evsPass cfg2 (stPass cfg1 s)).countP
        (isSuccessCallAt ui ri) := by
      rw [List.countP_pos_iff]
      exact ⟨_, hcall2, by simp [isSuccessCallAt]⟩
    omega

/-- C4, witness: the retry theorem applied to a concrete two-pass run. -/
theorem c4_witness :
    ((process_due_once (mkCfgA false true) stA).2 ++
      (process_due_once (mkCfgA true true)
        (process_due_once (mkCfgA false true) stA).1).2).countP
      (isSuccessCallAt 0 0) = 1 :=
  (c4_retry_on_failure (mkCfgA false true) (mkCfgA true true) stA 0 0 usrA
    remA ⟨2024, 5, 1, 9, 30, 0⟩ (by decide) (by decide) (by decide)
    (by decide) (by decide) (by decide) (by decide) (by decide) (by decide)
    (by decide) (by decide) (by decide) (by decide) (by decide) (by decide)
    (by decide) (by decide)).2.2.2.2.2

/-- C9: the mark-called write.  Its only mutation is `calledAt` (the
`calledAt`-erased store is unchanged); when some stored reminder changes,
the changed reminder belongs to the first user with the target `userId`
owning a match, is the first reminder of that user satisfying the match
condition — `createdAt` equality when the dispatched reminder carries a
creation identifier, else the conjunction of `date`, `time`, `message` and
`calledAt == null` — and only its `calledAt` is set, to the write time;
and at most one position changes. -/
theorem c9_mark_matching (ts : Nat) (uid : String) (r : Reminder)
    (s : Store) :
    eraseS (mark_called ts uid r s) = eraseS s ∧
    (∀ ui ri q, getRem s ui ri = some q →
      getRem (mark_called ts uid r s) ui ri ≠ some q →
      ∃ u, s[ui]? = some u ∧ u.userId = uid ∧ specRemMatch r q ∧
        getRem (mark_called ts uid r s) ui ri =
          some { q with calledAt := some ts } ∧
        (∀ k q', k < ri → u.reminders[k]? = some q' →
          ¬ specRemMatch r q') ∧
        (∀ j u', j < ui → s[j]? = some u' →
          ¬(u'.userId = uid ∧ ∃ q' ∈ u'.reminders, specRemMatch r q'))) ∧
    (∀ ui ri ui' ri',
      getRem (mark_called ts uid r s) ui ri ≠ getRem s ui ri →
      getRem (mark_called ts uid r s) ui' ri' ≠ getRem s ui' ri' →
      ui = ui' ∧ ri = ri') := by
  refine ⟨eraseS_mark_called ts uid r s, ?_⟩
  rcases updateFirst_cases
    (fun u => u.userId == uid && u.reminders.any (remMatch r))
    (fun u =>
      { u with
        reminders := updateFirst (remMatch r)
          (fun q => { q with calledAt := some ts }) u.reminders }) s with
    ⟨heq, hall⟩ | ⟨i, w, hw, hpw, hfirst, heq⟩
  · have hm : mark_called ts uid r s = s := by
      unfold mark_called
      exact heq
    constructor
    · intro ui ri q hq hne
      rw [hm] at hne
      exact absurd hq hne
    · intro ui ri ui' ri' h1 h2
      rw [hm] at h1
      exact absurd rfl h1
  · have hpw2 := hpw
    rw [Bool.and_eq_true] at hpw2
    obtain ⟨huidw, hanyw⟩ := hpw2
    rw [beq_iff_eq] at huidw
    rcases updateFirst_cases (remMatch r)
      (fun q => { q with calledAt := some ts }) w.reminders with
      ⟨heq2, hall2⟩ | ⟨k, q0, hq0, hpq0, hfirst2, heq2⟩
    · exfalso
      obtain ⟨x, hx, hpx⟩ := List.any_eq_true.mp hanyw
      rw [hall2 x hx] at hpx
      exact absurd hpx (by simp)
    · have hm : mark_called ts uid r s = s.set i
          { w with
            reminders := w.reminders.set k { q0 with calledAt := some ts } } := by
        unfold mark_called
        rw [heq]
        rw [heq2]
      have hlen : i < s.length := (List.getElem?_eq_some.mp hw).1
      have hlen2 : k < w.reminders.length := (List.getElem?_eq_some.mp hq0).1
      have hGs : ∀ ri, getRem s i ri = w.reminders[ri]? := by
        intro ri
        unfold getRem
        rw [hw]
      have hGm : ∀ ri, getRem (mark_called ts uid r s) i ri =
          (w.reminders.set k { q0 with calledAt := some ts })[ri]? := by
        intro ri
        rw [hm]
        exact getRem_set_user ri hlen
      have hGother : ∀ ui ri, ui ≠ i →
          getRem (mark_called ts uid r s) ui ri = getRem s ui ri := by
        intro ui ri hne
        rw [hm]
        exact getRem_set_ne_user hne
      have hchange : ∀ a b,
          getRem (mark_called ts uid r s) a b ≠ getRem s a b →
          a = i ∧ b = k := by
        intro a b hab
        by_cases ha : a = i
        · subst ha
          by_cases hb : b = k
          · exact ⟨rfl, hb⟩
          · exfalso
            apply hab
            rw [hGm, hGs, List.getElem?_set_ne (fun hc => hb hc.symm)]
        · exact absurd (hGother a b ha) hab
      constructor
      · intro ui ri q hq hne
        have hik : ui = i ∧ ri = k := by
          apply hchange
          intro hc
          rw [hc] at hne
          exact hne hq
        obtain ⟨rfl, rfl⟩ := hik
        have hqq0 : q = q0 := by
          rw [hGs, hq0] at hq
          injection hq with hq
          exact hq.symm
        subst hqq0
        refine ⟨w, hw, huidw, remMatch_iff.mp hpq0, ?_, ?_, ?_⟩
        · rw [hGm, List.getElem?_set_self hlen2]
        · intro k' q' hk' hq'
          intro hsm
          have := hfirst2 k' q' hk' hq'
          rw [remMatch_iff.mpr hsm] at this
          exact absurd this (by simp)
        · intro j u' hj hu'
          rintro ⟨h1, q', hq', hsm⟩
          have := hfirst j u' hj hu'
          rw [h1, beq_self_eq_true, Bool.true_and] at this
          rw [List.any_eq_true.mpr ⟨q', hq', remMatch_iff.mpr hsm⟩] at this
          exact absurd this (by simp)
      · intro ui ri ui' ri' h1 h2
        obtain ⟨rfl, rfl⟩ := hchange ui ri h1
        obtain ⟨rfl, rfl⟩ := hchange ui' ri' h2
        exact ⟨rfl, rfl⟩

/-- C9, witness: the characterization applied to a concrete store in which
the mark write changes the single matching reminder. -/
theorem c9_witness :
    ∃ u, stA[0]? = some u ∧ u.userId = "u1" ∧ specRemMatch remA remA ∧
      getRem (mark_called 100 "u1" remA stA) 0 0 =
        some { remA with calledAt := some 100 } ∧
      (∀ k q', k < 0 → u.reminders[k]? = some q' →
        ¬ specRemMatch remA q') ∧
      (∀ j u', j < 0 → stA[j]? = some u' →
        ¬(u'.userId = "u1" ∧ ∃ q' ∈ u'.reminders, specRemMatch remA q')) :=
  (c9_mark_matching 100 "u1" remA stA).2.1 0 0 remA (by decide) (by decide)

end CallSystem
